import Mathlib

/-!
Verification of the snapshot-producing sorting engine in `Project/algorithms.py`.

Each Python generator is embedded as a Lean function from the input list to the
full (finite) list of yielded snapshots.  The working array is a `List Int`;
in-place updates (`a[i] = v`, tuple swaps) become `List.set`; a `for j in
range(lo, hi)` loop becomes structural recursion over the explicit index list;
the `while` loops become recursion over an explicit decreasing argument; the
`yield` statements produce the snapshot list in order.
-/

set_option maxHeartbeats 1000000

namespace Mavis

/-- A yielded snapshot: the array copy paired with the info dict from
`algorithms.py` (`'active'`, `'sorted'`, optional `'label'`; a missing
`'sorted'` key is the empty list). -/
structure Snap (α : Type) where
  arr : List α
  active : List Nat
  sorted : List Nat
  label : Option String := none
deriving DecidableEq, Repr

/-- Python read `a[i]` (every reachable read is in bounds). -/
def geti (a : List Int) (i : Nat) : Int := a.getD i 0

/-- Python `a[i], a[j] = a[j], a[i]`: both right-hand sides are read before
either write happens. -/
def listSwap (a : List Int) (i j : Nat) : List Int :=
  let x := geti a i
  let y := geti a j
  (a.set i y).set j x

/-- Python `list(range(lo, hi))`. -/
def pyRange (lo hi : Nat) : List Nat := List.range' lo (hi - lo)

/-- Python slice `a[lo:hi]` (for the in-range slices the code takes). -/
def pySlice {α : Type} (a : List α) (lo hi : Nat) : List α := (a.take hi).drop lo

/-! ## bubble_sort (`algorithms.py` lines 17–34) -/

/-- Inner loop of `bubble_sort` (lines 26–31): one pass over the index list
`js = range(0, n-i-1)`; returns the array, the `swapped` flag and the yielded
snapshots. -/
def bubbleInner (n i : Nat) : List Nat → List Int → Bool → List Int × Bool × List (Snap Int)
  | [], a, sw => (a, sw, [])
  | j :: js, a, sw =>
    let s1 : Snap Int := ⟨a, [j, j + 1], pyRange (n - i) n, none⟩
    if geti a j > geti a (j + 1) then
      let a1 := listSwap a j (j + 1)
      let s2 : Snap Int := ⟨a1, [j, j + 1], pyRange (n - i) n, none⟩
      let r := bubbleInner n i js a1 true
      (r.1, r.2.1, s1 :: s2 :: r.2.2)
    else
      let r := bubbleInner n i js a sw
      (r.1, r.2.1, s1 :: r.2.2)

/-- Outer loop of `bubble_sort` (lines 24–33) over `i ∈ range(n)`, with the
early-exit `break` when a pass makes no swap. -/
def bubbleOuter (n : Nat) : List Nat → List Int → List Int × List (Snap Int)
  | [], a => (a, [])
  | i :: is', a =>
    let r := bubbleInner n i (List.range (n - i - 1)) a false
    if r.2.1 then
      let r2 := bubbleOuter n is' r.1
      (r2.1, r.2.2 ++ r2.2)
    else (r.1, r.2.2)

/-- `bubble_sort` (lines 17–34): the full list of yielded snapshots. -/
def bubble_sort (arr : List Int) : List (Snap Int) :=
  let a := arr
  let n := arr.length
  if n = 0 then [⟨a, [], [], none⟩]
  else
    let r := bubbleOuter n (List.range n) a
    ⟨a, [], [], none⟩ :: (r.2 ++ [⟨r.1, [], List.range n, none⟩])

/-! ## selection_sort (lines 37–51) -/

/-- Inner scan of `selection_sort` (lines 43–47) over `js = range(i+1, n)`,
tracking `min_idx`; the array is not modified during the scan. -/
def selInner (n i : Nat) (a : List Int) : List Nat → Nat → Nat × List (Snap Int)
  | [], m => (m, [])
  | j :: js, m =>
    let s1 : Snap Int := ⟨a, [m, j], List.range i, none⟩
    if geti a j < geti a m then
      let s2 : Snap Int := ⟨a, [j], List.range i, none⟩
      let r := selInner n i a js j
      (r.1, s1 :: s2 :: r.2)
    else
      let r := selInner n i a js m
      (r.1, s1 :: r.2)

/-- Outer loop of `selection_sort` (lines 41–50). -/
def selOuter (n : Nat) : List Nat → List Int → List Int × List (Snap Int)
  | [], a => (a, [])
  | i :: is', a =>
    let r := selInner n i a (pyRange (i + 1) n) i
    if i ≠ r.1 then
      let a1 := listSwap a i r.1
      let s : Snap Int := ⟨a1, [i, r.1], List.range (i + 1), none⟩
      let r2 := selOuter n is' a1
      (r2.1, r.2 ++ s :: r2.2)
    else
      let r2 := selOuter n is' a
      (r2.1, r.2 ++ r2.2)

/-- `selection_sort` (lines 37–51).  Note: unlike `bubble_sort` it has no
special case for the empty input, so it always yields a first and a last
snapshot. -/
def selection_sort (arr : List Int) : List (Snap Int) :=
  let a := arr
  let n := arr.length
  let r := selOuter n (List.range n) a
  ⟨a, [], [], none⟩ :: (r.2 ++ [⟨r.1, [], List.range n, none⟩])

/-! ## insertion_sort (lines 54–68) -/

/-- Inner shifting loop of `insertion_sort` (lines 61–65), with `jp = j + 1`
(the Python `j` runs from `i-1` down to `-1`, so `j + 1` stays a natural
number).  Returns the final `j + 1`, the array and the snapshots. -/
def insInner (n i : Nat) (key : Int) : Nat → List Int → Nat × List Int × List (Snap Int)
  | 0, a => (0, a, [])
  | jp + 1, a =>
    if geti a jp > key then
      let s1 : Snap Int := ⟨a, [jp, jp + 1], pyRange (i + 1) n, none⟩
      let a1 := a.set (jp + 1) (geti a jp)
      let s2 : Snap Int := ⟨a1, [jp], pyRange (i + 1) n, none⟩
      let r := insInner n i key jp a1
      (r.1, r.2.1, s1 :: s2 :: r.2.2)
    else (jp + 1, a, [])

/-- Outer loop of `insertion_sort` (lines 58–67) over `i ∈ range(1, n)`. -/
def insOuter (n : Nat) : List Nat → List Int → List Int × List (Snap Int)
  | [], a => (a, [])
  | i :: is', a =>
    let key := geti a i
    let r := insInner n i key i a
    let a1 := r.2.1.set r.1 key
    let s : Snap Int := ⟨a1, [r.1], pyRange (i + 1) n, none⟩
    let r2 := insOuter n is' a1
    (r2.1, r.2.2 ++ s :: r2.2)

/-- `insertion_sort` (lines 54–68); like `selection_sort` it has no special
case for the empty input. -/
def insertion_sort (arr : List Int) : List (Snap Int) :=
  let a := arr
  let n := arr.length
  let r := insOuter n (pyRange 1 n) a
  ⟨a, [], [], none⟩ :: (r.2 ++ [⟨r.1, [], List.range n, none⟩])

/-! ## merge_sort (lines 73–117)

The generator is generic over the comparison used at line 89 (`L[i] <= R[j]`);
the repository instantiates it with `<=` on integers.  Keeping the comparison
as a parameter lets the stability of the merge be stated on key/tag pairs. -/

/-- The trailing copy while-loops of `merge` (lines 97–106): the rest of the
non-exhausted buffer is written out, one snapshot (with `active = [k-1]` after
the increment of `k`) per write. -/
def copyLoop {α : Type} : List α → Nat → List α → List α × List (Snap α)
  | [], _, a => (a, [])
  | x :: L, k, a =>
    let a1 := a.set k x
    let s : Snap α := ⟨a1, [k], [], none⟩
    let r := copyLoop L (k + 1) a1
    (r.1, s :: r.2)

/-- The main merging while-loop of `merge` (lines 87–96): `L`, `R` are the
unconsumed tails of the two buffer copies and `k` the write cursor.  When one
buffer is exhausted, the copy loops finish the job. -/
def mergeLoop {α : Type} (le : α → α → Bool) (lft mid rgt : Nat) :
    List α → List α → Nat → List α → List α × List (Snap α)
  | [], R, k, a => copyLoop R k a
  | x :: L, [], k, a => copyLoop (x :: L) k a
  | x :: L, y :: R, k, a =>
    let s1 : Snap α := ⟨a, [k], [], some s!"merging {lft}:{mid} + {mid}:{rgt}"⟩
    if le x y then
      let a1 := a.set k x
      let s2 : Snap α := ⟨a1, [k], [], some "after write"⟩
      let r := mergeLoop le lft mid rgt L (y :: R) (k + 1) a1
      (r.1, s1 :: s2 :: r.2)
    else
      let a1 := a.set k y
      let s2 : Snap α := ⟨a1, [k], [], some "after write"⟩
      let r := mergeLoop le lft mid rgt (x :: L) R (k + 1) a1
      (r.1, s1 :: s2 :: r.2)
termination_by L R => L.length + R.length

/-- `merge(left, mid, right)` (lines 82–106): copy the two slices, then run the
merging loops writing from cursor `left`. -/
def merge {α : Type} (le : α → α → Bool) (a : List α) (lft mid rgt : Nat) :
    List α × List (Snap α) :=
  mergeLoop le lft mid rgt (pySlice a lft mid) (pySlice a mid rgt) lft a

/-- `sort_rec(left, right)` (lines 108–116). -/
def sort_rec {α : Type} (le : α → α → Bool) (lft rgt : Nat) (a : List α) :
    List α × List (Snap α) :=
  if rgt - lft ≤ 1 then (a, [])
  else
    let mid := (lft + rgt) / 2
    let r1 := sort_rec le lft mid a
    let r2 := sort_rec le mid rgt r1.1
    let r3 := merge le r2.1 lft mid rgt
    (r3.1, r1.2 ++ r2.2 ++ r3.2)
termination_by rgt - lft
decreasing_by all_goals omega

/-- Generic `merge_sort` (lines 73–117), parametrized by the comparison. -/
def merge_sortG {α : Type} (le : α → α → Bool) (arr : List α) : List (Snap α) :=
  let a := arr
  let n := arr.length
  if n = 0 then [⟨a, [], [], none⟩]
  else
    let r := sort_rec le 0 n a
    ⟨a, [], [], none⟩ :: (r.2 ++ [⟨r.1, [], List.range n, none⟩])

/-- `merge_sort` from `algorithms.py`, at the integer comparison `<=`. -/
def merge_sort (arr : List Int) : List (Snap Int) :=
  merge_sortG (fun x y : Int => decide (x ≤ y)) arr

/-! ## quick_sort (lines 122–184): the executed iterative, explicit-stack path -/

/-- The Lomuto partition scan of the iterative `quick_sort` (lines 172–177),
over `js = range(low, high)`, with running boundary `i`. -/
def partLoop (high : Nat) (pivot : Int) :
    List Nat → Nat → List Int → Nat × List Int × List (Snap Int)
  | [], i, a => (i, a, [])
  | j :: js, i, a =>
    let s1 : Snap Int := ⟨a, [j, high], [], some "compare to pivot"⟩
    if geti a j < pivot then
      let a1 := listSwap a i j
      let s2 : Snap Int := ⟨a1, [i, j], [], some "swap smaller"⟩
      let r := partLoop high pivot js (i + 1) a1
      (r.1, r.2.1, s1 :: s2 :: r.2.2)
    else
      let r := partLoop high pivot js i a
      (r.1, r.2.1, s1 :: r.2.2)

/-- One full partition of a popped `(low, high)` range (lines 170–179): the
scan, the final pivot swap and the "pivot placed" snapshot.  Returns the new
array, the pivot position `i` and the snapshots. -/
def partitionStep (a : List Int) (low high : Nat) : List Int × Nat × List (Snap Int) :=
  let pivot := geti a high
  let r := partLoop high pivot (pyRange low high) low a
  let a1 := listSwap r.2.1 r.1 high
  (a1, r.1, r.2.2 ++ [⟨a1, [r.1, high], [], some "pivot placed"⟩])

/-- The explicit-stack loop of `quick_sort` (lines 165–182), with `fuel`
bounding the number of pops; `none` means the fuel ran out, which never happens
for `fuel = quickFuel n` (see the termination theorem).  The stack holds `Int`
pairs because the pushed `i - 1` can be `-1`. -/
def quickLoop : Nat → List (Int × Int) → List Int → Option (List Int × List (Snap Int))
  | _, [], a => some (a, [])
  | 0, _ :: _, _ => none
  | fuel + 1, (low, high) :: st, a =>
    if low ≥ high then quickLoop fuel st a
    else
      let r := partitionStep a low.toNat high.toNat
      match quickLoop fuel (((r.2.1 : Int) + 1, high) :: (low, (r.2.1 : Int) - 1) :: st) r.1 with
      | some res => some (res.1, r.2.2 ++ res.2)
      | none => none

/-- Fuel that always suffices for `quickLoop`. -/
def quickFuel (n : Nat) : Nat := 2 * n + 2

/-- `quick_sort` (lines 122–184). -/
def quick_sort (arr : List Int) : List (Snap Int) :=
  let a := arr
  let n := arr.length
  if n = 0 then [⟨a, [], [], none⟩]
  else
    match quickLoop (quickFuel n) [((0 : Int), (n : Int) - 1)] a with
    | some res => ⟨a, [], [], none⟩ :: (res.2 ++ [⟨res.1, [], List.range n, none⟩])
    | none => [⟨a, [], [], none⟩]

/-! ## Pure reference functions -/

/-- Pure content of the merging loops: the sequence of values `merge` writes
between `left` and `right` (ties take the left buffer, line 89). -/
def mergeLists {α : Type} (le : α → α → Bool) : List α → List α → List α
  | [], R => R
  | x :: L, [] => x :: L
  | x :: L, y :: R =>
    if le x y then x :: mergeLists le L (y :: R) else y :: mergeLists le (x :: L) R
termination_by L R => L.length + R.length

/-- Pure reference of the divide-and-conquer in `sort_rec`: split at the
middle, sort both halves, merge. -/
def msortPure {α : Type} (le : α → α → Bool) (l : List α) : List α :=
  if h : l.length ≤ 1 then l
  else
    mergeLists le (msortPure le (l.take (l.length / 2))) (msortPure le (l.drop (l.length / 2)))
termination_by l.length
decreasing_by
  all_goals simp only [List.length_take, List.length_drop]
  all_goals omega

/-! ## Key/tag pairs, for observing the stability of the merge -/

/-- Tagged values: compare by key only, exactly the `L[i] <= R[j]` comparison
shape of the merge (the tag does not participate). -/
def pairLe (x y : Int × Nat) : Bool := decide (x.1 ≤ y.1)

/-- The elements carrying a given key, in order of appearance. -/
def keyFilter (k : Int) (l : List (Int × Nat)) : List (Int × Nat) :=
  l.filter (fun x => decide (x.1 = k))

/-- The key-only relation on pairs, for the reference stable sort
(`List.insertionSort`, which inserts each element before the equal-keyed
elements to its right and is therefore stable). -/
def rPair (x y : Int × Nat) : Prop := x.1 ≤ y.1

instance rPairDec : DecidableRel rPair := fun x y => inferInstanceAs (Decidable (x.1 ≤ y.1))

instance rPairTotal : IsTotal (Int × Nat) rPair := ⟨fun x y => le_total x.1 y.1⟩

instance rPairTrans : IsTrans (Int × Nat) rPair := ⟨fun _ _ _ h1 h2 => le_trans h1 h2⟩

/-! ## Predicates used by the invariant proofs -/

/-- Invariant of the bubble outer loop: every pair whose larger index lies in
the already-finalized suffix `[k, n)` is ordered. -/
def bubbleDS (a : List Int) (k : Nat) : Prop :=
  ∀ p q, p < q → q < a.length → k ≤ q → geti a p ≤ geti a q

/-- Invariant of the selection outer loop: the prefix `[0, i)` is in place. -/
def selDS (a : List Int) (i : Nat) : Prop :=
  ∀ p q, p < i → p ≤ q → q < a.length → geti a p ≤ geti a q

/-- Number of indices in a stack range of `quick_sort`. -/
def rangeSize (e : Int × Int) : Nat := (e.2 - e.1 + 1).toNat

/-- Total number of indices covered by the quick_sort stack, with
multiplicity. -/
def stackMeasure (st : List (Int × Int)) : Nat := (st.map rangeSize).sum

/-- A stack range covers the index pair `(p, q)`. -/
def covers (e : Int × Int) (p q : Nat) : Prop := e.1 ≤ (p : Int) ∧ (q : Int) ≤ e.2

/-- Invariant of the quick_sort stack loop: every pair of positions not covered
together by a pending range is already ordered. -/
def stOK (st : List (Int × Int)) (a : List Int) : Prop :=
  ∀ p q : Nat, p < q → q < a.length → (∀ e ∈ st, ¬ covers e p q) → geti a p ≤ geti a q

/-- Two stack ranges share no index. -/
def disjointE (e1 e2 : Int × Int) : Prop :=
  ∀ x : Int, ¬(e1.1 ≤ x ∧ x ≤ e1.2 ∧ e2.1 ≤ x ∧ x ≤ e2.2)

/-- All stack ranges lie within `[0, n-1]`. -/
def stBounded (n : Nat) (st : List (Int × Int)) : Prop :=
  ∀ e ∈ st, 0 ≤ e.1 ∧ e.2 ≤ (n : Int) - 1

/-! ## Basic facts about the embedding primitives -/

theorem geti_eq_getElem {a : List Int} {i : Nat} (h : i < a.length) : geti a i = a[i] :=
  List.getD_eq_getElem a 0 h

theorem geti_set_self {a : List Int} {i : Nat} (v : Int) (h : i < a.length) :
    geti (a.set i v) i = v := by
  rw [geti, List.getD_eq_getElem _ _ (by simpa using h), List.getElem_set_self]

theorem geti_set_other {a : List Int} {i p : Nat} (v : Int) (h : i ≠ p) :
    geti (a.set i v) p = geti a p := by
  by_cases hp : p < a.length
  · rw [geti, geti, List.getD_eq_getElem _ _ (by simpa using hp),
      List.getD_eq_getElem _ _ hp, List.getElem_set_ne h]
  · rw [geti, geti, List.getD_eq_default _ _ (by simpa using Nat.le_of_not_lt hp),
      List.getD_eq_default _ _ (Nat.le_of_not_lt hp)]

theorem length_listSwap (a : List Int) (i j : Nat) : (listSwap a i j).length = a.length := by
  simp [listSwap]

theorem geti_listSwap_left {a : List Int} {i j : Nat} (hi : i < a.length) :
    geti (listSwap a i j) i = geti a j := by
  unfold listSwap
  by_cases hij : j = i
  · subst hij; rw [geti_set_self _ (by simpa using hi)]
  · rw [geti_set_other _ hij, geti_set_self _ hi]

theorem geti_listSwap_right {a : List Int} {i j : Nat} (hj : j < a.length) :
    geti (listSwap a i j) j = geti a i := by
  unfold listSwap
  rw [geti_set_self _ (by simpa using hj)]

theorem geti_listSwap_other {a : List Int} {i j p : Nat} (hpi : i ≠ p) (hpj : j ≠ p) :
    geti (listSwap a i j) p = geti a p := by
  unfold listSwap
  rw [geti_set_other _ hpj, geti_set_other _ hpi]

theorem cons_set_perm {α : Type} (x : α) (t : List α) (k : Nat) (hk : k < t.length) :
    List.Perm (t[k] :: t.set k x) (x :: t) := by
  have hd : t = t.take k ++ t[k] :: t.drop (k + 1) := by
    rw [← List.drop_eq_getElem_cons hk, List.take_append_drop]
  have hs : t.set k x = t.take k ++ x :: t.drop (k + 1) := List.set_eq_take_cons_drop _ hk
  have p1 : List.Perm (t[k] :: t.set k x) (t[k] :: x :: (t.take k ++ t.drop (k + 1))) :=
    List.Perm.cons _ (by rw [hs]; exact List.perm_middle)
  have p2 : List.Perm (t[k] :: x :: (t.take k ++ t.drop (k + 1)))
      (x :: t[k] :: (t.take k ++ t.drop (k + 1))) := List.Perm.swap _ _ _
  have p3 : List.Perm (x :: t[k] :: (t.take k ++ t.drop (k + 1)))
      (x :: (t.take k ++ t[k] :: t.drop (k + 1))) := List.Perm.cons _ List.perm_middle.symm
  exact ((p1.trans p2).trans p3).trans (by rw [← hd])

theorem set_set_perm {α : Type} (a : List α) (i j : Nat) (hi : i < a.length)
    (hj : j < a.length) : List.Perm ((a.set i a[j]).set j a[i]) a := by
  induction a generalizing i j with
  | nil => simp at hi
  | cons x t ih =>
    match i, j with
    | 0, 0 => simp
    | 0, m+1 =>
      simp only [List.getElem_cons_succ, List.getElem_cons_zero, List.set_cons_zero,
        List.set_cons_succ]
      exact cons_set_perm x t m (by simpa using hj)
    | k+1, 0 =>
      simp only [List.getElem_cons_succ, List.getElem_cons_zero, List.set_cons_zero,
        List.set_cons_succ]
      exact cons_set_perm x t k (by simpa using hi)
    | k+1, m+1 =>
      simp only [List.getElem_cons_succ, List.set_cons_succ]
      exact List.Perm.cons _ (ih k m (by simpa using hi) (by simpa using hj))

theorem listSwap_perm (a : List Int) (i j : Nat) (hi : i < a.length) (hj : j < a.length) :
    List.Perm (listSwap a i j) a := by
  unfold listSwap
  rw [geti_eq_getElem hi, geti_eq_getElem hj]
  exact set_set_perm a i j hi hj

/-- Non-decreasing order, through the total read `geti`. -/
theorem sorted_iff_geti {a : List Int} :
    List.Pairwise (· ≤ ·) a ↔ ∀ p q, p < q → q < a.length → geti a p ≤ geti a q := by
  rw [List.pairwise_iff_getElem]
  constructor
  · intro h p q hpq hq
    rw [geti_eq_getElem (Nat.lt_trans hpq hq), geti_eq_getElem hq]
    exact h p q (Nat.lt_trans hpq hq) hq hpq
  · intro h p q hp hq hpq
    rw [← geti_eq_getElem hp, ← geti_eq_getElem hq]
    exact h p q hpq hq

/-- Lists of equal length that agree pointwise from position `k` on have equal
`drop k`. -/
theorem drop_eq_of_geti_eq {a b : List Int} (hlen : a.length = b.length) (k : Nat)
    (h : ∀ p, k ≤ p → geti a p = geti b p) : a.drop k = b.drop k := by
  apply List.ext_getElem (by simp [hlen])
  intro p h1 h2
  have ha : k + p < a.length := by have := h1; simp only [List.length_drop] at this; omega
  have hb : k + p < b.length := by have := h2; simp only [List.length_drop] at this; omega
  rw [List.getElem_drop, List.getElem_drop, ← geti_eq_getElem ha, ← geti_eq_getElem hb]
  exact h (k + p) (Nat.le_add_right k p)

/-- A permutation that is pointwise equal from position `k` on restricts to a
permutation of the first `k` elements. -/
theorem take_perm_of_perm_of_drop_eq {a b : List Int} (hperm : List.Perm a b) (k : Nat)
    (hdrop : a.drop k = b.drop k) : List.Perm (a.take k) (b.take k) := by
  have h1 : List.Perm (a.take k ++ a.drop k) (b.take k ++ b.drop k) := by
    rw [List.take_append_drop, List.take_append_drop]; exact hperm
  rw [hdrop] at h1
  exact (List.perm_append_right_iff _).mp h1

/-! ## Facts about bubble_sort -/

theorem bubbleInner_length (n i : Nat) : ∀ (js : List Nat) (a : List Int) (sw : Bool),
    (bubbleInner n i js a sw).1.length = a.length := by
  intro js
  induction js with
  | nil => intro a sw; rfl
  | cons j js ih =>
    intro a sw
    simp only [bubbleInner]
    split
    · simpa [length_listSwap] using ih (listSwap a j (j + 1)) true
    · exact ih a sw

theorem bubbleInner_spec (n i : Nat) : ∀ (js : List Nat) (a : List Int) (sw : Bool),
    (∀ j ∈ js, j + 1 < a.length) →
    List.Perm (bubbleInner n i js a sw).1 a ∧
    (∀ s ∈ (bubbleInner n i js a sw).2.2,
      List.Perm s.arr a ∧ s.arr.length = a.length ∧ ∀ idx ∈ s.active, idx < a.length) := by
  intro js
  induction js with
  | nil => intro a sw _; exact ⟨List.Perm.refl _, by intro s hs; simp [bubbleInner] at hs⟩
  | cons j js ih =>
    intro a sw hb
    have hj1 : j + 1 < a.length := hb j (List.mem_cons_self j js)
    have hj : j < a.length := Nat.lt_of_succ_lt hj1
    have hbt : ∀ x ∈ js, x + 1 < a.length := fun x hx => hb x (List.mem_cons_of_mem j hx)
    simp only [bubbleInner]
    split
    · have hsw := listSwap_perm a j (j + 1) hj hj1
      have hlen : (listSwap a j (j + 1)).length = a.length := length_listSwap a j (j + 1)
      have ih' := ih (listSwap a j (j + 1)) true (by rw [hlen]; exact hbt)
      refine ⟨ih'.1.trans hsw, ?_⟩
      intro s hs
      simp only [List.mem_cons] at hs
      rcases hs with rfl | rfl | hs
      · exact ⟨List.Perm.refl _, rfl, by intro idx h; simp at h; omega⟩
      · exact ⟨hsw, hlen, by intro idx h; simp at h; omega⟩
      · obtain ⟨h1, h2, h3⟩ := ih'.2 s hs
        exact ⟨h1.trans hsw, by rw [← hlen]; exact h2, by rw [← hlen]; exact h3⟩
    · have ih' := ih a sw hbt
      refine ⟨ih'.1, ?_⟩
      intro s hs
      simp only [List.mem_cons] at hs
      rcases hs with rfl | hs
      · exact ⟨List.Perm.refl _, rfl, by intro idx h; simp at h; omega⟩
      · exact ih'.2 s hs

theorem bubbleInner_tail (n i : Nat) : ∀ (js : List Nat) (a : List Int) (sw : Bool) (m : Nat),
    (∀ j ∈ js, j + 1 ≤ m) → ∀ p, m < p → geti (bubbleInner n i js a sw).1 p = geti a p := by
  intro js
  induction js with
  | nil => intro a sw m _ p _; rfl
  | cons j js ih =>
    intro a sw m hb p hp
    have hj1 : j + 1 ≤ m := hb j (List.mem_cons_self j js)
    have hbt : ∀ x ∈ js, x + 1 ≤ m := fun x hx => hb x (List.mem_cons_of_mem j hx)
    simp only [bubbleInner]
    split
    · rw [ih (listSwap a j (j + 1)) true m hbt p hp]
      exact geti_listSwap_other (by omega) (by omega)
    · exact ih a sw m hbt p hp

theorem bubbleInner_true (n i : Nat) : ∀ (js : List Nat) (a : List Int),
    (bubbleInner n i js a true).2.1 = true := by
  intro js
  induction js with
  | nil => intro a; rfl
  | cons j js ih =>
    intro a
    simp only [bubbleInner]
    split
    · exact ih (listSwap a j (j + 1))
    · exact ih a

theorem bubbleInner_noswap (n i : Nat) : ∀ (js : List Nat) (a : List Int),
    (bubbleInner n i js a false).2.1 = false →
    (bubbleInner n i js a false).1 = a ∧
    (∀ j ∈ js, geti a j ≤ geti a (j + 1)) ∧
    (bubbleInner n i js a false).2.2 =
      js.map (fun j => (⟨a, [j, j + 1], pyRange (n - i) n, none⟩ : Snap Int)) := by
  intro js
  induction js with
  | nil => intro a _; exact ⟨rfl, by simp, rfl⟩
  | cons j js ih =>
    intro a hsw
    simp only [bubbleInner] at hsw ⊢
    by_cases hc : geti a j > geti a (j + 1)
    · rw [if_pos hc] at hsw
      simp only [bubbleInner_true] at hsw
      exact absurd hsw (by simp)
    · rw [if_neg hc] at hsw ⊢
      obtain ⟨h1, h2, h3⟩ := ih a hsw
      refine ⟨h1, ?_, by simp [h3]⟩
      intro x hx
      rcases List.mem_cons.mp hx with rfl | hx
      · omega
      · exact h2 x hx

theorem bubbleInner_max (n i : Nat) : ∀ (mj j : Nat) (a : List Int) (sw : Bool),
    (∀ p, p ≤ j → geti a p ≤ geti a j) →
    j + mj < a.length →
    ∀ p, p ≤ j + mj →
      geti (bubbleInner n i (List.range' j mj) a sw).1 p ≤
      geti (bubbleInner n i (List.range' j mj) a sw).1 (j + mj) := by
  intro mj
  induction mj with
  | zero =>
    intro j a sw hmax _ p hp
    simp only [List.range'_zero, bubbleInner, Nat.add_zero]
    exact hmax p (by omega)
  | succ mj ih =>
    intro j a sw hmax hlen p hp
    rw [List.range'_succ]
    simp only [bubbleInner]
    have hj1 : j + 1 < a.length := by omega
    have hj : j < a.length := by omega
    have heq : j + (mj + 1) = (j + 1) + mj := by omega
    rw [heq]
    split
    · rename_i hc
      have hlen' : (listSwap a j (j + 1)).length = a.length := length_listSwap a j (j + 1)
      have hmax' : ∀ q, q ≤ j + 1 →
          geti (listSwap a j (j + 1)) q ≤ geti (listSwap a j (j + 1)) (j + 1) := by
        intro q hq
        rw [geti_listSwap_right hj1]
        rcases Nat.lt_or_ge q j with h2 | h2
        · rw [@geti_listSwap_other a j (j + 1) q (by omega) (by omega)]
          exact le_trans (hmax q (by omega)) (le_refl _)
        · rcases Nat.lt_or_ge q (j + 1) with h3 | h3
          · have hqj : q = j := by omega
            subst hqj
            rw [geti_listSwap_left hj]
            omega
          · have hqj : q = j + 1 := by omega
            subst hqj
            rw [geti_listSwap_right hj1]
      exact ih (j + 1) (listSwap a j (j + 1)) true hmax' (by omega) p (by omega)
    · rename_i hc
      have hmax' : ∀ q, q ≤ j + 1 → geti a q ≤ geti a (j + 1) := by
        intro q hq
        rcases Nat.lt_or_ge q (j + 1) with h | h
        · exact le_trans (hmax q (by omega)) (by omega)
        · have hqj : q = j + 1 := by omega
          subst hqj
          exact le_refl _
      exact ih (j + 1) a sw hmax' (by omega) p (by omega)

theorem mono_of_adjacent (a : List Int) (m : Nat)
    (h : ∀ j, j < m → geti a j ≤ geti a (j + 1)) :
    ∀ p q, p ≤ q → q ≤ m → geti a p ≤ geti a q := by
  intro p q
  induction q with
  | zero => intro hp _; have : p = 0 := by omega
            subst this; exact le_refl _
  | succ q ih =>
    intro hp hq
    rcases Nat.lt_or_ge p (q + 1) with h1 | h1
    · exact le_trans (ih (by omega) (by omega)) (h q (by omega))
    · have : p = q + 1 := by omega
      subst this; exact le_refl _

theorem bubbleOuter_spec (n : Nat) : ∀ (cnt i : Nat) (a : List Int),
    i + cnt = n → a.length = n → bubbleDS a (n - i) →
    List.Pairwise (· ≤ ·) (bubbleOuter n (List.range' i cnt) a).1 ∧
    List.Perm (bubbleOuter n (List.range' i cnt) a).1 a ∧
    (bubbleOuter n (List.range' i cnt) a).1.length = n ∧
    (∀ s ∈ (bubbleOuter n (List.range' i cnt) a).2,
      List.Perm s.arr a ∧ s.arr.length = n ∧ ∀ idx ∈ s.active, idx < n) := by
  intro cnt
  induction cnt with
  | zero =>
    intro i a hin hlen hds
    have hi : i = n := by omega
    subst hi
    simp only [List.range'_zero, bubbleOuter]
    refine ⟨?_, List.Perm.refl _, hlen, by intro s hs; simp at hs⟩
    rw [sorted_iff_geti]
    intro p q hpq hq
    exact hds p q hpq hq (by omega)
  | succ cnt ih =>
    intro i a hin hlen hds
    rw [List.range'_succ]
    simp only [bubbleOuter]
    set m : Nat := n - i - 1 with hm
    have hn1 : 1 ≤ n := by omega
    have hbnd : ∀ j ∈ List.range (n - i - 1), j + 1 < a.length := by
      intro j hj
      rw [List.mem_range] at hj
      omega
    have hjle : ∀ j ∈ List.range (n - i - 1), j + 1 ≤ m := by
      intro j hj
      rw [List.mem_range] at hj
      omega
    obtain ⟨hperm, hsnaps⟩ := bubbleInner_spec n i (List.range (n - i - 1)) a false hbnd
    have hlen1 := bubbleInner_length n i (List.range (n - i - 1)) a false
    have htail := bubbleInner_tail n i (List.range (n - i - 1)) a false m hjle
    have hmax : ∀ p, p ≤ m →
        geti (bubbleInner n i (List.range (n - i - 1)) a false).1 p ≤
        geti (bubbleInner n i (List.range (n - i - 1)) a false).1 m := by
      have h0 : ∀ p, p ≤ 0 → geti a p ≤ geti a 0 := by
        intro p hp
        have : p = 0 := by omega
        subst this; exact le_refl _
      have := bubbleInner_max n i (n - i - 1) 0 a false h0 (by omega)
      intro p hp
      have h2 := this p (by omega)
      rw [List.range_eq_range']
      simpa using h2
    -- the array after the pass, and the preserved suffix invariant
    set a1 := (bubbleInner n i (List.range (n - i - 1)) a false).1 with ha1
    have hlen1' : a1.length = n := by rw [ha1, hlen1, hlen]
    have hprefmem : ∀ p, p ≤ m → ∃ r, r ≤ m ∧ geti a1 p = geti a r := by
      intro p hp
      have hdrop : a1.drop (m + 1) = a.drop (m + 1) := by
        apply drop_eq_of_geti_eq (by rw [hlen1', hlen]) (m + 1)
        intro x hx
        exact htail x (by omega)
      have htake := take_perm_of_perm_of_drop_eq hperm (m + 1) hdrop
      have hpm : p < a1.length := by omega
      have hv : a1[p] ∈ a1.take (m + 1) := by
        have hlt : p < (a1.take (m + 1)).length := by
          rw [List.length_take]; omega
        have : (a1.take (m + 1))[p] = a1[p] := List.getElem_take _
        rw [← this]
        exact List.getElem_mem _
      have hv2 : a1[p] ∈ a.take (m + 1) := htake.mem_iff.mp hv
      rw [List.mem_iff_getElem] at hv2
      obtain ⟨r, hr, hra⟩ := hv2
      have hrm : r < m + 1 := by
        have := hr
        rw [List.length_take] at this
        omega
      have hra' : geti a r = a1[p] := by
        rw [geti_eq_getElem (show r < a.length by omega), ← hra]
        exact (List.getElem_take _).symm
      refine ⟨r, by omega, ?_⟩
      rw [geti_eq_getElem hpm]
      exact hra'.symm
    have hds1 : bubbleDS a1 (n - (i + 1)) := by
      intro p q hpq hq hq2
      have hq' : q < n := by omega
      rcases Nat.lt_or_ge m q with hmq | hmq
      · -- q beyond the pass: value unchanged; bound p's value by an old prefix value
        have hq3 : geti a1 q = geti a q := htail q hmq
        rcases Nat.lt_or_ge m p with hmp | hmp
        · have hp3 : geti a1 p = geti a p := htail p hmp
          rw [hp3, hq3]
          exact hds p q hpq (by omega) (by omega)
        · obtain ⟨r, hrm, hrv⟩ := hprefmem p hmp
          rw [hrv, hq3]
          exact hds r q (by omega) (by omega) (by omega)
      · have hqm : q = m := by omega
        subst hqm
        exact hmax p (by omega)
    split
    · -- a swap occurred: recurse
      have ihr := ih (i + 1) a1 (by omega) hlen1' hds1
      refine ⟨ihr.1, ihr.2.1.trans hperm, ihr.2.2.1, ?_⟩
      intro s hs
      rw [List.mem_append] at hs
      rcases hs with hs | hs
      · obtain ⟨h1, h2, h3⟩ := hsnaps s hs
        exact ⟨h1, by rw [h2, hlen], by intro idx hidx; rw [← hlen]; exact h3 idx hidx⟩
      · obtain ⟨h1, h2, h3⟩ := ihr.2.2.2 s hs
        exact ⟨h1.trans hperm, h2, h3⟩
    · -- no swap: early exit, and the array is already sorted
      rename_i hflag
      rw [Bool.not_eq_true] at hflag
      obtain ⟨heq, hadj, _⟩ := bubbleInner_noswap n i (List.range (n - i - 1)) a hflag
      have hsorted : List.Pairwise (· ≤ ·) a1 := by
        rw [ha1, heq, sorted_iff_geti]
        intro p q hpq hq
        rcases Nat.lt_or_ge m q with hmq | hmq
        · exact hds p q hpq hq (by omega)
        · have hadj' : ∀ j, j < m → geti a j ≤ geti a (j + 1) := by
            intro j hj
            exact hadj j (by rw [List.mem_range]; omega)
          exact mono_of_adjacent a m hadj' p q (by omega) (by omega)
      refine ⟨hsorted, hperm, hlen1', ?_⟩
      intro s hs
      obtain ⟨h1, h2, h3⟩ := hsnaps s hs
      exact ⟨h1, by rw [h2, hlen], by intro idx hidx; rw [← hlen]; exact h3 idx hidx⟩

theorem getLast?_shape {α : Type} (x y : Snap α) (l : List (Snap α)) :
    (x :: (l ++ [y])).getLast? = some y := by
  rw [← List.cons_append, List.getLast?_concat]

/-- The last snapshot of `bubble_sort`: sorted array, permutation of the input,
empty `active`, full `sorted` index list. -/
theorem bubble_sort_last (arr : List Int) :
    ∃ s, (bubble_sort arr).getLast? = some s ∧
      List.Pairwise (· ≤ ·) s.arr ∧ List.Perm s.arr arr ∧
      s.active = [] ∧ s.sorted = List.range arr.length := by
  unfold bubble_sort
  by_cases h : arr.length = 0
  · rw [if_pos h]
    refine ⟨_, rfl, ?_, List.Perm.refl _, rfl, by rw [h]; rfl⟩
    have : arr = [] := List.length_eq_zero.mp h
    subst this
    exact List.Pairwise.nil
  · rw [if_neg h]
    have hds : bubbleDS arr (arr.length - 0) := by
      intro p q hpq hq hq2
      omega
    obtain ⟨h1, h2, _, _⟩ := bubbleOuter_spec arr.length arr.length 0 arr (by omega) rfl hds
    rw [← List.range_eq_range'] at h1 h2
    exact ⟨_, getLast?_shape _ _ _, h1, h2, rfl, rfl⟩

/-- Every snapshot of `bubble_sort` has an array that is a permutation of the
input (hence of the same length), and in-range active indices. -/
theorem bubble_sort_all (arr : List Int) : ∀ s ∈ bubble_sort arr,
    List.Perm s.arr arr ∧ s.arr.length = arr.length ∧ ∀ idx ∈ s.active, idx < arr.length := by
  intro s hs
  unfold bubble_sort at hs
  by_cases h : arr.length = 0
  · rw [if_pos h] at hs
    simp at hs
    subst hs
    exact ⟨List.Perm.refl _, rfl, by intro idx hidx; simp at hidx⟩
  · rw [if_neg h] at hs
    have hds : bubbleDS arr (arr.length - 0) := by
      intro p q hpq hq hq2
      omega
    obtain ⟨_, h2, h3, h4⟩ := bubbleOuter_spec arr.length arr.length 0 arr (by omega) rfl hds
    rw [← List.range_eq_range'] at h2 h3 h4
    rcases List.mem_cons.mp hs with rfl | hs
    · exact ⟨List.Perm.refl _, rfl, by intro idx hidx; simp at hidx⟩
    · rcases List.mem_append.mp hs with hs | hs
      · exact h4 s hs
      · simp only [List.mem_singleton] at hs
        subst hs
        exact ⟨h2, h3, by intro idx hidx; simp at hidx⟩

/-- First snapshot of `bubble_sort` is the unmodified input with empty
highlight sets. -/
theorem bubble_sort_head (arr : List Int) :
    (bubble_sort arr).head? = some ⟨arr, [], [], none⟩ := by
  unfold bubble_sort
  by_cases h : arr.length = 0
  · rw [if_pos h]; rfl
  · rw [if_neg h]; rfl

theorem bubbleInner_of_sorted (n i : Nat) : ∀ (js : List Nat) (a : List Int),
    (∀ j ∈ js, ¬(geti a j > geti a (j + 1))) →
    bubbleInner n i js a false =
      (a, false, js.map (fun j => (⟨a, [j, j + 1], pyRange (n - i) n, none⟩ : Snap Int))) := by
  intro js
  induction js with
  | nil => intro a _; rfl
  | cons j js ih =>
    intro a hle
    simp only [bubbleInner]
    rw [if_neg (hle j (List.mem_cons_self j js))]
    rw [ih a (fun x hx => hle x (List.mem_cons_of_mem j hx))]
    rfl

/-- On an already-sorted non-empty input, `bubble_sort` does exactly one pass
and exits early: the trace is the before-frame, `n - 1` comparison frames and
the final frame. -/
theorem bubble_sort_of_sorted (arr : List Int) (hs : List.Pairwise (· ≤ ·) arr)
    (hne : arr ≠ []) :
    bubble_sort arr = ⟨arr, [], [], none⟩ ::
      ((List.range (arr.length - 1)).map
        (fun j => (⟨arr, [j, j + 1], [], none⟩ : Snap Int)) ++
      [⟨arr, [], List.range arr.length, none⟩]) := by
  have hn : arr.length ≠ 0 := by
    intro h
    exact hne (List.length_eq_zero.mp h)
  unfold bubble_sort
  rw [if_neg hn]
  have hadj : ∀ j ∈ List.range (arr.length - 0 - 1), ¬(geti arr j > geti arr (j + 1)) := by
    intro j hj
    rw [List.mem_range] at hj
    have := (sorted_iff_geti.mp hs) j (j + 1) (by omega) (by omega)
    omega
  have hrange : List.range arr.length = 0 :: List.range' 1 (arr.length - 1) := by
    rw [List.range_eq_range']
    have : arr.length = (arr.length - 1) + 1 := by omega
    rw [this, List.range'_succ, ← this]
  rw [hrange]
  simp only [bubbleOuter]
  rw [bubbleInner_of_sorted arr.length 0 _ arr hadj]
  simp only [Bool.false_eq_true, if_false]
  have hpy : pyRange (arr.length - 0) arr.length = [] := by
    simp [pyRange]
  rw [hpy]
  simp only [Nat.sub_zero]

theorem take_set_of_le (a : List Int) (k t : Nat) (v : Int) (h : t ≤ k) :
    (a.set k v).take t = a.take t := by
  apply List.ext_getElem (by simp)
  intro p h1 h2
  rw [List.getElem_take, List.getElem_take, List.getElem_set_ne (show k ≠ p by
    rw [List.length_take] at h1
    omega)]

theorem take_succ_getElem (a : List Int) (i : Nat) (h : i < a.length) :
    a.take (i + 1) = a.take i ++ [a[i]] := by
  rw [List.take_succ, List.getElem?_eq_getElem h]
  rfl

/-! ## Facts about selection_sort -/

theorem selInner_spec (n i : Nat) (a : List Int) (hn : a.length = n) : ∀ (mj j m : Nat),
    j + mj = n → i ≤ m → m < j →
    (∀ p, i ≤ p → p < j → geti a m ≤ geti a p) →
    i ≤ (selInner n i a (List.range' j mj) m).1 ∧
    (selInner n i a (List.range' j mj) m).1 < j + mj ∧
    (∀ p, i ≤ p → p < j + mj → geti a (selInner n i a (List.range' j mj) m).1 ≤ geti a p) ∧
    (∀ s ∈ (selInner n i a (List.range' j mj) m).2,
      s.arr = a ∧ ∀ idx ∈ s.active, idx < n) := by
  intro mj
  induction mj with
  | zero =>
    intro j m hjm him hmj hmin
    simp only [List.range'_zero, selInner, Nat.add_zero]
    exact ⟨him, by omega, fun p hp1 hp2 => hmin p hp1 hp2, by intro s hs; simp at hs⟩
  | succ mj ih =>
    intro j m hjm him hmj hmin
    rw [List.range'_succ]
    simp only [selInner]
    have hjn : j < n := by omega
    have hmn : m < n := by omega
    split
    · rename_i hc
      have hmin' : ∀ p, i ≤ p → p < j + 1 → geti a j ≤ geti a p := by
        intro p hp1 hp2
        rcases Nat.lt_or_ge p j with h | h
        · exact le_trans (le_of_lt hc) (hmin p hp1 h)
        · have : p = j := by omega
          subst this; exact le_refl _
      have ihr := ih (j + 1) j (by omega) (by omega) (by omega) hmin'
      have harith : j + 1 + mj = j + (mj + 1) := by omega
      rw [harith] at ihr
      refine ⟨by omega, ihr.2.1, ihr.2.2.1, ?_⟩
      intro s hs
      rcases List.mem_cons.mp hs with rfl | hs
      · exact ⟨rfl, by intro idx hidx; simp at hidx; omega⟩
      · rcases List.mem_cons.mp hs with rfl | hs
        · exact ⟨rfl, by intro idx hidx; simp at hidx; omega⟩
        · exact ihr.2.2.2 s hs
    · rename_i hc
      have hmin' : ∀ p, i ≤ p → p < j + 1 → geti a m ≤ geti a p := by
        intro p hp1 hp2
        rcases Nat.lt_or_ge p j with h | h
        · exact hmin p hp1 h
        · have : p = j := by omega
          subst this
          omega
      have ihr := ih (j + 1) m (by omega) him (by omega) hmin'
      have harith : j + 1 + mj = j + (mj + 1) := by omega
      rw [harith] at ihr
      refine ⟨ihr.1, ihr.2.1, ihr.2.2.1, ?_⟩
      intro s hs
      rcases List.mem_cons.mp hs with rfl | hs
      · exact ⟨rfl, by intro idx hidx; simp at hidx; omega⟩
      · exact ihr.2.2.2 s hs

theorem selOuter_spec (n : Nat) : ∀ (cnt i : Nat) (a : List Int),
    i + cnt = n → a.length = n → selDS a i →
    List.Pairwise (· ≤ ·) (selOuter n (List.range' i cnt) a).1 ∧
    List.Perm (selOuter n (List.range' i cnt) a).1 a ∧
    (selOuter n (List.range' i cnt) a).1.length = n ∧
    (∀ s ∈ (selOuter n (List.range' i cnt) a).2,
      List.Perm s.arr a ∧ s.arr.length = n ∧ ∀ idx ∈ s.active, idx < n) := by
  intro cnt
  induction cnt with
  | zero =>
    intro i a hin hlen hds
    have hi : i = n := by omega
    subst hi
    simp only [List.range'_zero, selOuter]
    refine ⟨?_, List.Perm.refl _, hlen, by intro s hs; simp at hs⟩
    rw [sorted_iff_geti]
    intro p q hpq hq
    exact hds p q (by omega) (by omega) hq
  | succ cnt ih =>
    intro i a hin hlen hds
    rw [List.range'_succ]
    simp only [selOuter]
    have hin' : i < n := by omega
    have hpyr : pyRange (i + 1) n = List.range' (i + 1) (n - (i + 1)) := rfl
    have hsel := selInner_spec n i a hlen (n - (i + 1)) (i + 1) i (by omega) (le_refl i)
      (by omega) (by intro p hp1 hp2; have : p = i := by omega
                     subst this; exact le_refl _)
    rw [hpyr]
    set m := (selInner n i a (List.range' (i + 1) (n - (i + 1))) i).1 with hmdef
    obtain ⟨him, hmlt, hmin, hsnapsIn⟩ := hsel
    have hmlt' : m < n := by omega
    have hminFull : ∀ p, i ≤ p → p < n → geti a m ≤ geti a p := by
      intro p hp1 hp2
      exact hmin p hp1 (by omega)
    split
    · rename_i hne
      -- swap branch
      set a1 := listSwap a i m with ha1
      have hlen1 : a1.length = n := by rw [ha1, length_listSwap, hlen]
      have hswp := listSwap_perm a i m (by omega) (by omega)
      have hgi : geti a1 i = geti a m := geti_listSwap_left (by omega)
      have hgm : geti a1 m = geti a i := geti_listSwap_right (by omega)
      have hgo : ∀ p, p ≠ i → p ≠ m → geti a1 p = geti a p := by
        intro p h1 h2
        exact geti_listSwap_other (fun hh => h1 hh.symm) (fun hh => h2 hh.symm)
      have hds1 : selDS a1 (i + 1) := by
        intro p q hp hpq hq
        rw [hlen1] at hq
        rcases Nat.lt_or_ge p i with hpi | hpi
        · have hp1 : geti a1 p = geti a p := hgo p (by omega) (by omega)
          rw [hp1]
          by_cases hqi : q = i
          · subst hqi
            rw [hgi]
            exact hds p m hpi (by omega) (by omega)
          · by_cases hqm : q = m
            · subst hqm
              rw [hgm]
              exact hds p i hpi (by omega) (by omega)
            · rw [hgo q hqi hqm]
              exact hds p q hpi hpq (by omega)
        · have hpieq : p = i := by omega
          rw [hpieq, hgi]
          by_cases hqi : q = i
          · rw [hqi, hgi]
          · by_cases hqm : q = m
            · rw [hqm, hgm]
              exact hminFull i (le_refl i) (by omega)
            · rw [hgo q hqi hqm]
              exact hminFull q (by omega) (by omega)
      have ihr := ih (i + 1) a1 (by omega) hlen1 hds1
      refine ⟨ihr.1, ihr.2.1.trans hswp, ihr.2.2.1, ?_⟩
      intro s hs
      rw [List.mem_append] at hs
      rcases hs with hs | hs
      · obtain ⟨h1, h2⟩ := hsnapsIn s hs
        subst h1
        exact ⟨List.Perm.refl _, hlen, h2⟩
      · rcases List.mem_cons.mp hs with rfl | hs
        · exact ⟨hswp, hlen1, by intro idx hidx; simp at hidx; omega⟩
        · obtain ⟨h1, h2, h3⟩ := ihr.2.2.2 s hs
          exact ⟨h1.trans hswp, h2, h3⟩
    · rename_i hne
      -- no swap: the minimum is already at position i
      have hieq : i = m := by
        by_contra hcon
        exact hne hcon
      have hds1 : selDS a (i + 1) := by
        intro p q hp hpq hq
        rcases Nat.lt_or_ge p i with hpi | hpi
        · exact hds p q hpi hpq hq
        · have hpieq : p = i := by omega
          rw [hpieq, hieq]
          exact hminFull q (by omega) (by omega)
      have ihr := ih (i + 1) a (by omega) hlen hds1
      refine ⟨ihr.1, ihr.2.1, ihr.2.2.1, ?_⟩
      intro s hs
      rw [List.mem_append] at hs
      rcases hs with hs | hs
      · obtain ⟨h1, h2⟩ := hsnapsIn s hs
        subst h1
        exact ⟨List.Perm.refl _, hlen, h2⟩
      · exact ihr.2.2.2 s hs

/-- The last snapshot of `selection_sort`. -/
theorem selection_sort_last (arr : List Int) :
    ∃ s, (selection_sort arr).getLast? = some s ∧
      List.Pairwise (· ≤ ·) s.arr ∧ List.Perm s.arr arr ∧
      s.active = [] ∧ s.sorted = List.range arr.length := by
  unfold selection_sort
  have hds : selDS arr 0 := by
    intro p q hp
    omega
  obtain ⟨h1, h2, _, _⟩ := selOuter_spec arr.length arr.length 0 arr (by omega) rfl hds
  rw [← List.range_eq_range'] at h1 h2
  exact ⟨_, getLast?_shape _ _ _, h1, h2, rfl, rfl⟩

/-- Every snapshot of `selection_sort` is a permutation of the input with
in-range active indices. -/
theorem selection_sort_all (arr : List Int) : ∀ s ∈ selection_sort arr,
    List.Perm s.arr arr ∧ s.arr.length = arr.length ∧ ∀ idx ∈ s.active, idx < arr.length := by
  intro s hs
  unfold selection_sort at hs
  have hds : selDS arr 0 := by
    intro p q hp
    omega
  obtain ⟨_, h2, h3, h4⟩ := selOuter_spec arr.length arr.length 0 arr (by omega) rfl hds
  rw [← List.range_eq_range'] at h2 h3 h4
  rcases List.mem_cons.mp hs with rfl | hs
  · exact ⟨List.Perm.refl _, rfl, by intro idx hidx; simp at hidx⟩
  · rcases List.mem_append.mp hs with hs | hs
    · exact h4 s hs
    · simp only [List.mem_singleton] at hs
      subst hs
      exact ⟨h2, h3, by intro idx hidx; simp at hidx⟩

theorem selection_sort_head (arr : List Int) :
    (selection_sort arr).head? = some ⟨arr, [], [], none⟩ := rfl

/-! ## Facts about insertion_sort -/

theorem insInner_spec (n i : Nat) (key : Int) : ∀ (jp : Nat) (a : List Int) (jf : Nat)
    (a' : List Int) (snaps : List (Snap Int)), jp < a.length →
    insInner n i key jp a = (jf, a', snaps) →
    jf ≤ jp ∧ a'.length = a.length ∧
    a'.set jf key = a.take jf ++ key :: (pySlice a jf jp ++ a.drop (jp + 1)) ∧
    (1 ≤ jf → geti a (jf - 1) ≤ key) ∧
    (∀ p, jf ≤ p → p < jp → key < geti a p) ∧
    (∀ s ∈ snaps, s.arr.length = a.length ∧ ∀ idx ∈ s.active, idx ≤ jp) := by
  intro jp
  induction jp with
  | zero =>
    intro a jf a' snaps hlt heq
    simp only [insInner] at heq
    obtain ⟨h1, h2, h3⟩ : 0 = jf ∧ a = a' ∧ ([] : List (Snap Int)) = snaps := by
      simpa [Prod.ext_iff] using heq
    subst h1 h2 h3
    refine ⟨le_refl _, rfl, ?_, by omega, by omega, by intro s hs; simp at hs⟩
    rw [List.set_eq_take_cons_drop _ hlt]
    simp [pySlice]
  | succ jp ih =>
    intro a jf a' snaps hlt heq
    have hjp : jp < a.length := by omega
    simp only [insInner] at heq
    split at heq
    · rename_i hc
      -- shift branch
      set a1 := a.set (jp + 1) (geti a jp) with ha1
      have hlen1 : a1.length = a.length := by rw [ha1, List.length_set]
      obtain ⟨hjf, hlen', hset, hstop, hgt, hsnaps⟩ :=
        ih a1 (insInner n i key jp a1).1 (insInner n i key jp a1).2.1
          (insInner n i key jp a1).2.2 (by omega) rfl
      obtain ⟨hjf', ha', hsn⟩ : (insInner n i key jp a1).1 = jf ∧
          (insInner n i key jp a1).2.1 = a' ∧
          (⟨a, [jp, jp + 1], pyRange (i + 1) n, none⟩ : Snap Int) ::
            (⟨a1, [jp], pyRange (i + 1) n, none⟩ : Snap Int) ::
            (insInner n i key jp a1).2.2 = snaps := by
        simpa [Prod.ext_iff] using heq
      subst hjf' ha' hsn
      set jf := (insInner n i key jp a1).1
      have p1 : a1.take jf = a.take jf := take_set_of_le a (jp + 1) jf _ (by omega)
      have p2 : pySlice a1 jf jp = pySlice a jf jp := by
        unfold pySlice
        rw [ha1, take_set_of_le a (jp + 1) jp _ (by omega)]
      have p3 : a1.drop (jp + 1) = geti a jp :: a.drop (jp + 2) := by
        rw [ha1, List.drop_set, if_neg (by omega)]
        have : jp + 1 - (jp + 1) = 0 := by omega
        rw [this, List.drop_eq_getElem_cons hlt, List.set_cons_zero,
          geti_eq_getElem hjp]
      have p4 : pySlice a jf (jp + 1) = pySlice a jf jp ++ [a[jp]] := by
        unfold pySlice
        rw [take_succ_getElem a jp hjp, List.drop_append_of_le_length (by
          rw [List.length_take]; omega)]
      refine ⟨by omega, by rw [hlen', hlen1], ?_, ?_, ?_, ?_⟩
      · rw [hset, p1, p2, p3, p4, geti_eq_getElem hjp]
        simp [List.append_assoc]
      · intro h1
        rw [← @geti_set_other a (jp + 1) (jf - 1) (geti a jp) (by omega)]
        exact hstop h1
      · intro p hp1 hp2
        rcases Nat.lt_or_ge p jp with h | h
        · have := hgt p hp1 h
          rwa [ha1, @geti_set_other a (jp + 1) p (geti a jp) (by omega)] at this
        · have hpeq : p = jp := by omega
          rw [hpeq]
          exact hc
      · intro s hs
        rcases List.mem_cons.mp hs with rfl | hs
        · exact ⟨rfl, by intro idx hidx; simp at hidx; omega⟩
        · rcases List.mem_cons.mp hs with rfl | hs
          · exact ⟨hlen1, by intro idx hidx; simp at hidx; omega⟩
          · obtain ⟨h1, h2⟩ := hsnaps s hs
            exact ⟨by rw [h1, hlen1], by intro idx hidx; exact Nat.le_trans (h2 idx hidx) (by omega)⟩
    · rename_i hc
      obtain ⟨h1, h2, h3⟩ : jp + 1 = jf ∧ a = a' ∧ ([] : List (Snap Int)) = snaps := by
        simpa [Prod.ext_iff] using heq
      subst h1 h2 h3
      refine ⟨le_refl _, rfl, ?_, ?_, by omega, by intro s hs; simp at hs⟩
      · rw [List.set_eq_take_cons_drop _ hlt]
        have hnil : pySlice a (jp + 1) (jp + 1) = [] := by
          simp [pySlice]
        rw [hnil]
        rfl
      · intro _
        simp only [Nat.add_sub_cancel]
        omega

theorem insOuter_spec (n : Nat) : ∀ (cnt i : Nat) (a : List Int),
    i + cnt = n → 1 ≤ i → a.length = n → List.Pairwise (· ≤ ·) (a.take i) →
    List.Pairwise (· ≤ ·) (insOuter n (List.range' i cnt) a).1 ∧
    List.Perm (insOuter n (List.range' i cnt) a).1 a ∧
    (insOuter n (List.range' i cnt) a).1.length = n ∧
    (∀ s ∈ (insOuter n (List.range' i cnt) a).2,
      s.arr.length = n ∧ ∀ idx ∈ s.active, idx < n) := by
  intro cnt
  induction cnt with
  | zero =>
    intro i a hin h1i hlen hsort
    have hieq : i = n := by omega
    subst hieq
    simp only [List.range'_zero, insOuter]
    rw [← hlen, List.take_length] at hsort
    exact ⟨hsort, List.Perm.refl _, hlen, by intro s hs; simp at hs⟩
  | succ cnt ih =>
    intro i a hin h1i hlen hsort
    rw [List.range'_succ]
    simp only [insOuter]
    have hi : i < n := by omega
    have hia : i < a.length := by omega
    have hcmp : ∀ p q, p < q → q < i → geti a p ≤ geti a q := by
      intro p q hpq hq
      have hh := List.pairwise_iff_getElem.mp hsort p q
        (by rw [List.length_take]; omega) (by rw [List.length_take]; omega) hpq
      rw [List.getElem_take, List.getElem_take] at hh
      rwa [geti_eq_getElem (show p < a.length by omega),
        geti_eq_getElem (show q < a.length by omega)]
    rcases hr : insInner n i (geti a i) i a with ⟨jf, a2, snaps⟩
    obtain ⟨hjf, hlen2, hset, hstop, hgt, hsnaps⟩ :=
      insInner_spec n i (geti a i) i a jf a2 snaps hia hr
    have hmemtake : ∀ x ∈ a.take jf, ∃ p, p < jf ∧ x = geti a p := by
      intro x hx
      obtain ⟨p, hp, hpx⟩ := List.mem_iff_getElem.mp hx
      have hplt : p < jf := by
        rw [List.length_take] at hp
        omega
      refine ⟨p, hplt, ?_⟩
      rw [← hpx, List.getElem_take, geti_eq_getElem (show p < a.length by omega)]
    have hmemslice : ∀ y ∈ pySlice a jf i, ∃ q, jf ≤ q ∧ q < i ∧ y = geti a q := by
      intro y hy
      obtain ⟨t, ht, hty⟩ := List.mem_iff_getElem.mp hy
      have htlt : t < i - jf := by
        simp only [pySlice, List.length_drop, List.length_take] at ht
        omega
      refine ⟨jf + t, by omega, by omega, ?_⟩
      rw [← hty]
      simp only [pySlice]
      rw [List.getElem_drop, List.getElem_take,
        geti_eq_getElem (show jf + t < a.length by omega)]
    dsimp only
    set key := geti a i with hkey
    have hkeyElem : key = a[i] := geti_eq_getElem hia
    set a1 := a2.set jf key with ha1
    have hX : a1 = (a.take jf ++ key :: pySlice a jf i) ++ a.drop (i + 1) := by
      rw [hset]
      simp [List.append_assoc, List.cons_append]
    clear_value key a1
    have hlenX : (a.take jf ++ key :: pySlice a jf i).length = i + 1 := by
      simp only [List.length_append, List.length_cons, List.length_take, pySlice,
        List.length_drop]
      omega
    have htake1 : a1.take (i + 1) = a.take jf ++ key :: pySlice a jf i := by
      rw [hX]
      exact List.take_left' hlenX
    have hdrop1 : a1.drop (i + 1) = a.drop (i + 1) := by
      rw [hX]
      exact List.drop_left' hlenX
    have hlen1 : a1.length = n := by
      rw [hX, List.length_append, hlenX, List.length_drop]
      omega
    have hprefix : a.take i = a.take jf ++ pySlice a jf i := by
      have h1 : (a.take i).take jf = a.take jf := by
        rw [List.take_take]
        congr 1
        omega
      conv_lhs => rw [← List.take_append_drop jf (a.take i)]
      rw [h1]
      rfl
    have hsplit : a = (a.take jf ++ pySlice a jf i) ++ a[i] :: a.drop (i + 1) := by
      rw [← hprefix]
      conv_lhs => rw [← List.take_append_drop i a, List.drop_eq_getElem_cons hia]
    have hperm1 : List.Perm a1 a := by
      rw [hX]
      conv_rhs => rw [hsplit]
      simp only [List.append_assoc, List.cons_append, List.nil_append]
      refine List.Perm.append_left _ ?_
      rw [hkeyElem]
      exact List.perm_middle.symm
    have hsort1 : List.Pairwise (· ≤ ·) (a1.take (i + 1)) := by
      rw [htake1, List.pairwise_append]
      refine ⟨?_, ?_, ?_⟩
      · have hjt : a.take jf = (a.take i).take jf := by
          rw [List.take_take]
          congr 1
          omega
        rw [hjt]
        exact hsort.sublist (List.take_sublist _ _)
      · rw [List.pairwise_cons]
        constructor
        · intro y hy
          obtain ⟨q, hq1, hq2, rfl⟩ := hmemslice y hy
          exact le_of_lt (hgt q hq1 hq2)
        · exact hsort.sublist (List.drop_sublist _ _)
      · intro x hx y hy
        obtain ⟨p, hplt, rfl⟩ := hmemtake x hx
        rcases List.mem_cons.mp hy with rfl | hy
        · have hjf1 : 1 ≤ jf := by omega
          have hstop' := hstop hjf1
          rcases Nat.lt_or_ge p (jf - 1) with h | h
          · exact le_trans (hcmp p (jf - 1) h (by omega)) hstop'
          · have hpeq : p = jf - 1 := by omega
            rw [hpeq]
            exact hstop'
        · obtain ⟨q, hq1, hq2, rfl⟩ := hmemslice y hy
          exact hcmp p q (by omega) hq2
    have ihr := ih (i + 1) a1 (by omega) (by omega) hlen1 hsort1
    refine ⟨ihr.1, ihr.2.1.trans hperm1, ihr.2.2.1, ?_⟩
    intro s hs
    rw [List.mem_append] at hs
    rcases hs with hs | hs
    · obtain ⟨h1, h2⟩ := hsnaps s hs
      exact ⟨by rw [h1, hlen], by intro idx hidx; exact lt_of_le_of_lt (h2 idx hidx) hi⟩
    · rcases List.mem_cons.mp hs with rfl | hs
      · exact ⟨hlen1, by intro idx hidx; simp at hidx; omega⟩
      · exact ihr.2.2.2 s hs

/-- The last snapshot of `insertion_sort`. -/
theorem insertion_sort_last (arr : List Int) :
    ∃ s, (insertion_sort arr).getLast? = some s ∧
      List.Pairwise (· ≤ ·) s.arr ∧ List.Perm s.arr arr ∧
      s.active = [] ∧ s.sorted = List.range arr.length := by
  unfold insertion_sort
  by_cases h : arr.length = 0
  · have harr : arr = [] := List.length_eq_zero.mp h
    subst harr
    exact ⟨_, getLast?_shape _ _ _, List.Pairwise.nil, List.Perm.refl _, rfl, rfl⟩
  · have hpy : pyRange 1 arr.length = List.range' 1 (arr.length - 1) := rfl
    have hsort0 : List.Pairwise (· ≤ ·) (arr.take 1) := by
      rw [List.pairwise_iff_getElem]
      intro p q hp hq hpq
      rw [List.length_take] at hq
      omega
    obtain ⟨h1, h2, _, _⟩ := insOuter_spec arr.length (arr.length - 1) 1 arr
      (by omega) (le_refl 1) rfl hsort0
    rw [← hpy] at h1 h2
    exact ⟨_, getLast?_shape _ _ _, h1, h2, rfl, rfl⟩

/-- Every snapshot of `insertion_sort` has the input's length and in-range
active indices (mid-shift snapshots need not be permutations). -/
theorem insertion_sort_all (arr : List Int) : ∀ s ∈ insertion_sort arr,
    s.arr.length = arr.length ∧ ∀ idx ∈ s.active, idx < arr.length := by
  intro s hs
  unfold insertion_sort at hs
  by_cases h : arr.length = 0
  · have harr : arr = [] := List.length_eq_zero.mp h
    subst harr
    simp only [List.length_nil, pyRange] at hs
    rcases List.mem_cons.mp hs with rfl | hs
    · exact ⟨rfl, by intro idx hidx; simp at hidx⟩
    · simp only [insOuter, List.nil_append, List.mem_singleton] at hs
      subst hs
      exact ⟨rfl, by intro idx hidx; simp at hidx⟩
  · have hpy : pyRange 1 arr.length = List.range' 1 (arr.length - 1) := rfl
    have hsort0 : List.Pairwise (· ≤ ·) (arr.take 1) := by
      rw [List.pairwise_iff_getElem]
      intro p q hp hq hpq
      rw [List.length_take] at hq
      omega
    obtain ⟨_, h2, h3, h4⟩ := insOuter_spec arr.length (arr.length - 1) 1 arr
      (by omega) (le_refl 1) rfl hsort0
    rw [← hpy] at h2 h3 h4
    rcases List.mem_cons.mp hs with rfl | hs
    · exact ⟨rfl, by intro idx hidx; simp at hidx⟩
    · rcases List.mem_append.mp hs with hs | hs
      · exact h4 s hs
      · simp only [List.mem_singleton] at hs
        subst hs
        exact ⟨h3, by intro idx hidx; simp at hidx⟩

theorem insertion_sort_head (arr : List Int) :
    (insertion_sort arr).head? = some ⟨arr, [], [], none⟩ := rfl

/-! ## Facts about merge_sort -/

theorem set_decomp {α : Type} (a : List α) (k : Nat) (x : α) (h : k < a.length) :
    a.set k x = (a.take k ++ [x]) ++ a.drop (k + 1) := by
  rw [List.set_eq_take_cons_drop _ h]
  simp

theorem set_take_succ {α : Type} (a : List α) (k : Nat) (x : α) (h : k < a.length) :
    (a.set k x).take (k + 1) = a.take k ++ [x] := by
  rw [set_decomp a k x h]
  exact List.take_left' (by simp [List.length_take]; omega)

theorem set_drop_succ {α : Type} (a : List α) (k : Nat) (x : α) (h : k < a.length) :
    (a.set k x).drop (k + 1) = a.drop (k + 1) := by
  rw [set_decomp a k x h]
  exact List.drop_left' (by simp [List.length_take]; omega)

theorem pySlice_eq {α : Type} (a : List α) (lo hi : Nat) :
    pySlice a lo hi = (a.drop lo).take (hi - lo) := by
  unfold pySlice
  rw [List.drop_take]

theorem length_pySlice {α : Type} (a : List α) (lo hi : Nat) (h1 : lo ≤ hi)
    (h2 : hi ≤ a.length) : (pySlice a lo hi).length = hi - lo := by
  unfold pySlice
  rw [List.length_drop, List.length_take]
  omega

theorem copyLoop_spec {α : Type} : ∀ (w : List α) (k : Nat) (a : List α),
    k + w.length ≤ a.length →
    (copyLoop w k a).1 = a.take k ++ w ++ a.drop (k + w.length) ∧
    (∀ s ∈ (copyLoop w k a).2,
      s.arr.length = a.length ∧ ∀ idx ∈ s.active, idx < a.length) := by
  intro w
  induction w with
  | nil =>
    intro k a hk
    simp only [copyLoop, List.length_nil, Nat.add_zero, List.append_nil]
    exact ⟨(List.take_append_drop k a).symm, by intro s hs; simp at hs⟩
  | cons x L ih =>
    intro k a hk
    simp only [copyLoop, List.length_cons]
    have hkl : k < a.length := by
      simp only [List.length_cons] at hk
      omega
    have hlen1 : (a.set k x).length = a.length := by simp
    obtain ⟨ih1, ih2⟩ := ih (k + 1) (a.set k x) (by
      simp only [List.length_cons] at hk
      omega)
    constructor
    · rw [ih1, set_take_succ a k x hkl]
      have hd : (a.set k x).drop (k + 1 + L.length) = a.drop (k + 1 + L.length) := by
        rw [List.drop_set, if_pos (by omega)]
      rw [hd]
      have harith : k + (L.length + 1) = k + 1 + L.length := by omega
      rw [harith]
      simp [List.append_assoc]
    · intro s hs
      rcases List.mem_cons.mp hs with rfl | hs
      · exact ⟨hlen1, by intro idx hidx; simp at hidx; omega⟩
      · obtain ⟨h1, h2⟩ := ih2 s hs
        rw [hlen1] at h1 h2
        exact ⟨h1, h2⟩

theorem mergeLoop_spec {α : Type} (le : α → α → Bool) (lft mid rgt : Nat) :
    ∀ (fuel : Nat) (L R : List α) (k : Nat) (a : List α),
    L.length + R.length ≤ fuel →
    k + L.length + R.length ≤ a.length →
    (mergeLoop le lft mid rgt L R k a).1 =
      a.take k ++ mergeLists le L R ++ a.drop (k + L.length + R.length) ∧
    (∀ s ∈ (mergeLoop le lft mid rgt L R k a).2,
      s.arr.length = a.length ∧ ∀ idx ∈ s.active, idx < a.length) := by
  intro fuel
  induction fuel with
  | zero =>
    intro L R k a hfuel hk
    match L, R with
    | [], R =>
      simp only [mergeLoop, mergeLists]
      simp only [List.length_nil, Nat.zero_add, Nat.add_zero] at hk ⊢
      have := copyLoop_spec R k a (by omega)
      exact ⟨by rw [this.1], this.2⟩
    | x :: L, [] =>
      simp only [List.length_cons] at hfuel
      omega
    | x :: L, y :: R =>
      simp only [List.length_cons] at hfuel
      omega
  | succ fuel ih =>
    intro L R k a hfuel hk
    match L, R with
    | [], R =>
      simp only [mergeLoop, mergeLists]
      simp only [List.length_nil, Nat.zero_add, Nat.add_zero] at hk ⊢
      have := copyLoop_spec R k a (by omega)
      exact ⟨by rw [this.1], this.2⟩
    | x :: L, [] =>
      simp only [mergeLoop, mergeLists]
      simp only [List.length_nil, List.length_cons, Nat.add_zero] at hk ⊢
      have := copyLoop_spec (x :: L) k a (by simp only [List.length_cons]; omega)
      exact ⟨by rw [this.1]; simp only [List.length_cons], this.2⟩
    | x :: L, y :: R =>
      simp only [List.length_cons] at hfuel hk
      have hkl : k < a.length := by omega
      simp only [mergeLoop, List.length_cons]
      split
      · rename_i hle
        have hlen1 : (a.set k x).length = a.length := by simp
        obtain ⟨ih1, ih2⟩ := ih L (y :: R) (k + 1) (a.set k x)
          (by simp only [List.length_cons]; omega)
          (by simp only [List.length_cons]; rw [hlen1]; omega)
        constructor
        · show (mergeLoop le lft mid rgt L (y :: R) (k + 1) (a.set k x)).1 = _
          rw [ih1, set_take_succ a k x hkl]
          simp only [List.length_cons]
          have hd : (a.set k x).drop (k + 1 + L.length + (R.length + 1)) =
              a.drop (k + 1 + L.length + (R.length + 1)) := by
            rw [List.drop_set, if_pos (by omega)]
          rw [hd]
          have hm : mergeLists le (x :: L) (y :: R) = x :: mergeLists le L (y :: R) := by
            rw [mergeLists, if_pos hle]
          rw [hm]
          have harith : k + (L.length + 1) + (R.length + 1) = k + 1 + L.length + (R.length + 1) := by
            omega
          rw [harith]
          simp [List.append_assoc, List.length_cons]
        · intro s hs
          rcases List.mem_cons.mp hs with rfl | hs
          · exact ⟨rfl, by intro idx hidx; simp at hidx; omega⟩
          · rcases List.mem_cons.mp hs with rfl | hs
            · exact ⟨hlen1, by intro idx hidx; simp at hidx; omega⟩
            · obtain ⟨h1, h2⟩ := ih2 s hs
              rw [hlen1] at h1 h2
              exact ⟨h1, h2⟩
      · rename_i hle
        have hlen1 : (a.set k y).length = a.length := by simp
        obtain ⟨ih1, ih2⟩ := ih (x :: L) R (k + 1) (a.set k y)
          (by simp only [List.length_cons]; omega)
          (by simp only [List.length_cons]; rw [hlen1]; omega)
        constructor
        · show (mergeLoop le lft mid rgt (x :: L) R (k + 1) (a.set k y)).1 = _
          rw [ih1, set_take_succ a k y hkl]
          simp only [List.length_cons]
          have hd : (a.set k y).drop (k + 1 + (L.length + 1) + R.length) =
              a.drop (k + 1 + (L.length + 1) + R.length) := by
            rw [List.drop_set, if_pos (by omega)]
          rw [hd]
          have hm : mergeLists le (x :: L) (y :: R) = y :: mergeLists le (x :: L) R := by
            rw [mergeLists, if_neg hle]
          rw [hm]
          have harith : k + (L.length + 1) + (R.length + 1) = k + 1 + (L.length + 1) + R.length := by
            omega
          rw [harith]
          simp [List.append_assoc, List.length_cons]
        · intro s hs
          rcases List.mem_cons.mp hs with rfl | hs
          · exact ⟨rfl, by intro idx hidx; simp at hidx; omega⟩
          · rcases List.mem_cons.mp hs with rfl | hs
            · exact ⟨hlen1, by intro idx hidx; simp at hidx; omega⟩
            · obtain ⟨h1, h2⟩ := ih2 s hs
              rw [hlen1] at h1 h2
              exact ⟨h1, h2⟩

theorem merge_spec {α : Type} (le : α → α → Bool) (a : List α) (lft mid rgt : Nat)
    (h1 : lft ≤ mid) (h2 : mid ≤ rgt) (h3 : rgt ≤ a.length) :
    (merge le a lft mid rgt).1 =
      a.take lft ++ mergeLists le (pySlice a lft mid) (pySlice a mid rgt) ++ a.drop rgt ∧
    (∀ s ∈ (merge le a lft mid rgt).2,
      s.arr.length = a.length ∧ ∀ idx ∈ s.active, idx < a.length) := by
  unfold merge
  have hl1 : (pySlice a lft mid).length = mid - lft := length_pySlice a lft mid h1 (by omega)
  have hl2 : (pySlice a mid rgt).length = rgt - mid := length_pySlice a mid rgt h2 h3
  have hs := mergeLoop_spec le lft mid rgt
    ((pySlice a lft mid).length + (pySlice a mid rgt).length)
    (pySlice a lft mid) (pySlice a mid rgt) lft a (le_refl _) (by rw [hl1, hl2]; omega)
  refine ⟨?_, hs.2⟩
  rw [hs.1, hl1, hl2]
  congr 2
  omega

theorem mergeLists_perm {α : Type} (le : α → α → Bool) : ∀ (fuel : Nat) (L R : List α),
    L.length + R.length ≤ fuel → List.Perm (mergeLists le L R) (L ++ R) := by
  intro fuel
  induction fuel with
  | zero =>
    intro L R hf
    match L, R with
    | [], R => simp only [mergeLists, List.nil_append]; exact List.Perm.refl _
    | x :: L, [] => simp only [List.length_cons] at hf; omega
    | x :: L, y :: R => simp only [List.length_cons] at hf; omega
  | succ fuel ih =>
    intro L R hf
    match L, R with
    | [], R => simp only [mergeLists, List.nil_append]; exact List.Perm.refl _
    | x :: L, [] => simp only [mergeLists, List.append_nil]; exact List.Perm.refl _
    | x :: L, y :: R =>
      simp only [List.length_cons] at hf
      rw [mergeLists]
      split
      · exact List.Perm.cons x (ih L (y :: R) (by simp only [List.length_cons]; omega))
      · have hp := List.Perm.cons y (ih (x :: L) R (by simp only [List.length_cons]; omega))
        refine hp.trans ?_
        exact List.perm_middle.symm

/-- Sortedness of the pure merge, for a total and transitive boolean
comparison. -/
theorem mergeLists_sorted {α : Type} (le : α → α → Bool)
    (htot : ∀ x y, le x y = false → le y x = true)
    (htrans : ∀ x y z, le x y = true → le y z = true → le x z = true) :
    ∀ (fuel : Nat) (L R : List α), L.length + R.length ≤ fuel →
    List.Pairwise (fun u v => le u v = true) L →
    List.Pairwise (fun u v => le u v = true) R →
    List.Pairwise (fun u v => le u v = true) (mergeLists le L R) := by
  intro fuel
  induction fuel with
  | zero =>
    intro L R hf hL hR
    match L, R with
    | [], R => simpa only [mergeLists] using hR
    | x :: L, [] => simp only [List.length_cons] at hf; omega
    | x :: L, y :: R => simp only [List.length_cons] at hf; omega
  | succ fuel ih =>
    intro L R hf hL hR
    match L, R with
    | [], R => simpa only [mergeLists] using hR
    | x :: L, [] => simpa only [mergeLists] using hL
    | x :: L, y :: R =>
      simp only [List.length_cons] at hf
      rw [mergeLists]
      split
      · rename_i hle
        rw [List.pairwise_cons]
        constructor
        · intro z hz
          have hz' : z ∈ L ++ (y :: R) :=
            (mergeLists_perm le (L.length + (y :: R).length) L (y :: R) (le_refl _)).mem_iff.mp hz
          rw [List.mem_append] at hz'
          rcases hz' with hz' | hz'
          · exact (List.pairwise_cons.mp hL).1 z hz'
          · rcases List.mem_cons.mp hz' with rfl | hz'
            · exact hle
            · exact htrans x y z hle ((List.pairwise_cons.mp hR).1 z hz')
        · exact ih L (y :: R) (by simp only [List.length_cons]; omega)
            (List.pairwise_cons.mp hL).2 hR
      · rename_i hle
        have hyx : le y x = true := htot x y (by simpa using hle)
        rw [List.pairwise_cons]
        constructor
        · intro z hz
          have hz' : z ∈ (x :: L) ++ R :=
            (mergeLists_perm le ((x :: L).length + R.length) (x :: L) R (le_refl _)).mem_iff.mp hz
          rw [List.mem_append] at hz'
          rcases hz' with hz' | hz'
          · rcases List.mem_cons.mp hz' with rfl | hz'
            · exact hyx
            · exact htrans y x z hyx ((List.pairwise_cons.mp hL).1 z hz')
          · exact (List.pairwise_cons.mp hR).1 z hz'
        · exact ih (x :: L) R (by simp only [List.length_cons]; omega) hL
            (List.pairwise_cons.mp hR).2

theorem msortPure_perm {α : Type} (le : α → α → Bool) : ∀ (fuel : Nat) (l : List α),
    l.length ≤ fuel → List.Perm (msortPure le l) l := by
  intro fuel
  induction fuel with
  | zero =>
    intro l hf
    have : l = [] := List.length_eq_zero.mp (by omega)
    subst this
    rw [msortPure]
    simp
  | succ fuel ih =>
    intro l hf
    rw [msortPure]
    split
    · exact List.Perm.refl _
    · rename_i hlen
      have h2 : 2 ≤ l.length := by omega
      have hp1 := ih (l.take (l.length / 2)) (by rw [List.length_take]; omega)
      have hp2 := ih (l.drop (l.length / 2)) (by rw [List.length_drop]; omega)
      have hm := mergeLists_perm le
        ((msortPure le (l.take (l.length / 2))).length +
          (msortPure le (l.drop (l.length / 2))).length) _ _ (le_refl _)
      refine hm.trans ?_
      refine (List.Perm.append hp1 hp2).trans ?_
      rw [List.take_append_drop]

theorem msortPure_sorted {α : Type} (le : α → α → Bool)
    (htot : ∀ x y, le x y = false → le y x = true)
    (htrans : ∀ x y z, le x y = true → le y z = true → le x z = true) :
    ∀ (fuel : Nat) (l : List α), l.length ≤ fuel →
    List.Pairwise (fun u v => le u v = true) (msortPure le l) := by
  intro fuel
  induction fuel with
  | zero =>
    intro l hf
    have : l = [] := List.length_eq_zero.mp (by omega)
    subst this
    rw [msortPure]
    simp
  | succ fuel ih =>
    intro l hf
    rw [msortPure]
    split
    · rename_i hlen
      match l, hlen with
      | [], _ => exact List.Pairwise.nil
      | [x], _ => exact List.pairwise_singleton _ x
    · rename_i hlen
      exact mergeLists_sorted le htot htrans
        ((msortPure le (l.take (l.length / 2))).length +
          (msortPure le (l.drop (l.length / 2))).length) _ _ (le_refl _)
        (ih _ (by rw [List.length_take]; omega))
        (ih _ (by rw [List.length_drop]; omega))

theorem msortPure_short {α : Type} (le : α → α → Bool) (l : List α) (h : l.length ≤ 1) :
    msortPure le l = l := by
  rw [msortPure, dif_pos h]

theorem take_pySlice_drop {α : Type} (a : List α) (lo hi : Nat) (h1 : lo ≤ hi)
    (h2 : hi ≤ a.length) : a.take lo ++ pySlice a lo hi ++ a.drop hi = a := by
  have ht : a.take lo = (a.take hi).take lo := by
    rw [List.take_take]
    congr 1
    omega
  rw [ht]
  show (a.take hi).take lo ++ (a.take hi).drop lo ++ a.drop hi = a
  rw [List.take_append_drop, List.take_append_drop]

theorem sortRec_spec {α : Type} (le : α → α → Bool) : ∀ (d lft rgt : Nat) (a : List α),
    rgt - lft ≤ d → lft ≤ rgt → rgt ≤ a.length →
    (sort_rec le lft rgt a).1 =
      a.take lft ++ msortPure le (pySlice a lft rgt) ++ a.drop rgt ∧
    (sort_rec le lft rgt a).1.length = a.length ∧
    (∀ s ∈ (sort_rec le lft rgt a).2,
      s.arr.length = a.length ∧ ∀ idx ∈ s.active, idx < a.length) := by
  intro d
  induction d with
  | zero =>
    intro lft rgt a hd hlr hra
    rw [sort_rec, if_pos (by omega)]
    have hsl : (pySlice a lft rgt).length ≤ 1 := by
      rw [length_pySlice a lft rgt hlr hra]
      omega
    refine ⟨?_, rfl, by intro s hs; simp at hs⟩
    rw [msortPure_short le _ hsl, take_pySlice_drop a lft rgt hlr hra]
  | succ d ih =>
    intro lft rgt a hd hlr hra
    rw [sort_rec]
    by_cases hbase : rgt - lft ≤ 1
    · rw [if_pos hbase]
      have hsl : (pySlice a lft rgt).length ≤ 1 := by
        rw [length_pySlice a lft rgt hlr hra]
        omega
      refine ⟨?_, rfl, by intro s hs; simp at hs⟩
      rw [msortPure_short le _ hsl, take_pySlice_drop a lft rgt hlr hra]
    · rw [if_neg hbase]
      dsimp only
      have hm1 : lft < (lft + rgt) / 2 := by omega
      have hm2 : (lft + rgt) / 2 < rgt := by omega
      set mid := (lft + rgt) / 2 with hmid
      clear_value mid
      -- first recursive call
      obtain ⟨e1, l1, s1⟩ := ih lft mid a (by omega) (by omega) (by omega)
      have hslml : (pySlice a lft mid).length = mid - lft :=
        length_pySlice a lft mid (by omega) (by omega)
      have hslmr : (pySlice a mid rgt).length = rgt - mid :=
        length_pySlice a mid rgt (by omega) (by omega)
      have hML : (msortPure le (pySlice a lft mid)).length = mid - lft := by
        rw [(msortPure_perm le (pySlice a lft mid).length _ (le_refl _)).length_eq, hslml]
      have hMR : (msortPure le (pySlice a mid rgt)).length = rgt - mid := by
        rw [(msortPure_perm le (pySlice a mid rgt).length _ (le_refl _)).length_eq, hslmr]
      set ML := msortPure le (pySlice a lft mid) with hMLdef
      set MR := msortPure le (pySlice a mid rgt) with hMRdef
      have hX1 : (sort_rec le lft mid a).1 = (a.take lft ++ ML) ++ a.drop mid := by
        rw [e1, List.append_assoc]
      have hpref1 : (a.take lft ++ ML).length = mid := by
        rw [List.length_append, List.length_take, hML]
        omega
      have htakemid : (sort_rec le lft mid a).1.take mid = a.take lft ++ ML := by
        rw [hX1]
        exact List.take_left' hpref1
      have hdropmid : (sort_rec le lft mid a).1.drop mid = a.drop mid := by
        rw [hX1]
        exact List.drop_left' hpref1
      -- second recursive call
      obtain ⟨e2, l2, s2⟩ := ih mid rgt (sort_rec le lft mid a).1 (by omega) (by omega)
        (by rw [l1]; omega)
      have hslice2 : pySlice (sort_rec le lft mid a).1 mid rgt = pySlice a mid rgt := by
        rw [pySlice_eq, pySlice_eq, hdropmid]
      rw [hslice2] at e2
      have hdroprgt1 : (sort_rec le lft mid a).1.drop rgt = a.drop rgt := by
        have hh : (sort_rec le lft mid a).1.drop rgt =
            ((sort_rec le lft mid a).1.drop mid).drop (rgt - mid) := by
          rw [List.drop_drop]
          congr 1
          omega
        rw [hh, hdropmid, List.drop_drop]
        congr 1
        omega
      have hX2 : (sort_rec le mid rgt (sort_rec le lft mid a).1).1 =
          ((a.take lft ++ ML) ++ MR) ++ a.drop rgt := by
        rw [e2, htakemid, hdroprgt1, ← hMRdef, List.append_assoc]
      have hpref2 : ((a.take lft ++ ML) ++ MR).length = rgt := by
        rw [List.length_append, hpref1, hMR]
        omega
      -- the merge
      obtain ⟨e3, s3⟩ := merge_spec le (sort_rec le mid rgt (sort_rec le lft mid a).1).1
        lft mid rgt (by omega) (by omega) (by rw [l2, l1]; omega)
      have htakelft2 : (sort_rec le mid rgt (sort_rec le lft mid a).1).1.take lft =
          a.take lft := by
        rw [hX2, List.append_assoc, List.append_assoc]
        exact List.take_left' (by rw [List.length_take]; omega)
      have hdroplft2 : (sort_rec le mid rgt (sort_rec le lft mid a).1).1.drop lft =
          ML ++ (MR ++ a.drop rgt) := by
        rw [hX2, List.append_assoc, List.append_assoc]
        exact List.drop_left' (by rw [List.length_take]; omega)
      have hsliceA : pySlice (sort_rec le mid rgt (sort_rec le lft mid a).1).1 lft mid =
          ML := by
        rw [pySlice_eq, hdroplft2]
        rw [List.take_left' hML]
      have hdropmid2 : (sort_rec le mid rgt (sort_rec le lft mid a).1).1.drop mid =
          MR ++ a.drop rgt := by
        rw [hX2, List.append_assoc]
        exact List.drop_left' hpref1
      have hsliceB : pySlice (sort_rec le mid rgt (sort_rec le lft mid a).1).1 mid rgt =
          MR := by
        rw [pySlice_eq, hdropmid2]
        rw [List.take_left' hMR]
      have hdroprgt2 : (sort_rec le mid rgt (sort_rec le lft mid a).1).1.drop rgt =
          a.drop rgt := by
        rw [hX2]
        exact List.drop_left' hpref2
      rw [hsliceA, hsliceB, htakelft2, hdroprgt2] at e3
      -- the msortPure unfolding
      have hlenslice : (pySlice a lft rgt).length = rgt - lft :=
        length_pySlice a lft rgt (by omega) (by omega)
      have hmsort : msortPure le (pySlice a lft rgt) = mergeLists le ML MR := by
        rw [msortPure, dif_neg (by rw [hlenslice]; omega), hlenslice]
        have hhalf : (pySlice a lft rgt).take ((rgt - lft) / 2) = pySlice a lft mid := by
          rw [pySlice_eq, pySlice_eq, List.take_take]
          congr 1
          omega
        have hhalf2 : (pySlice a lft rgt).drop ((rgt - lft) / 2) = pySlice a mid rgt := by
          rw [pySlice_eq, pySlice_eq, List.drop_take, List.drop_drop]
          congr 1
          · omega
          · congr 1
            omega
        rw [hhalf, hhalf2, hMLdef, hMRdef]
      -- assemble
      have hlen3 : (merge le (sort_rec le mid rgt (sort_rec le lft mid a).1).1 lft mid rgt).1.length
          = a.length := by
        rw [e3]
        rw [List.length_append, List.length_append, List.length_take, List.length_drop,
          (mergeLists_perm le (ML.length + MR.length) ML MR (le_refl _)).length_eq,
          List.length_append, hML, hMR]
        omega
      refine ⟨?_, ?_, ?_⟩
      · show (merge le (sort_rec le mid rgt (sort_rec le lft mid a).1).1 lft mid rgt).1 = _
        rw [e3, hmsort]
      · exact hlen3
      · show ∀ s ∈ (sort_rec le lft mid a).2 ++
            (sort_rec le mid rgt (sort_rec le lft mid a).1).2 ++
            (merge le (sort_rec le mid rgt (sort_rec le lft mid a).1).1 lft mid rgt).2, _
        intro s hs
        rw [List.mem_append, List.mem_append] at hs
        rcases hs with (hs | hs) | hs
        · exact s1 s hs
        · obtain ⟨h1, h2⟩ := s2 s hs
          rw [l1] at h1 h2
          exact ⟨h1, h2⟩
        · obtain ⟨h1, h2⟩ := s3 s hs
          rw [l2, l1] at h1 h2
          exact ⟨h1, h2⟩

theorem sortRec_full {α : Type} (le : α → α → Bool) (arr : List α) :
    (sort_rec le 0 arr.length arr).1 = msortPure le arr := by
  obtain ⟨e, _, _⟩ := sortRec_spec le arr.length 0 arr.length arr (by omega) (by omega)
    (le_refl _)
  rw [e]
  have hsl : pySlice arr 0 arr.length = arr := by
    simp [pySlice]
  rw [hsl]
  simp

/-- The last snapshot of the generic merge_sort holds the pure mergesort of the
input, with empty `active` and full `sorted`. -/
theorem merge_sortG_last {α : Type} (le : α → α → Bool) (arr : List α) :
    ∃ s, (merge_sortG le arr).getLast? = some s ∧ s.arr = msortPure le arr ∧
      s.active = [] ∧ s.sorted = List.range arr.length := by
  unfold merge_sortG
  by_cases h : arr.length = 0
  · rw [if_pos h]
    refine ⟨_, rfl, ?_, rfl, by rw [h]; rfl⟩
    rw [msortPure_short le arr (by omega)]
    rfl
  · rw [if_neg h]
    dsimp only
    exact ⟨_, getLast?_shape _ _ _, (sortRec_full le arr).symm ▸ rfl, rfl, rfl⟩

theorem merge_sortG_all {α : Type} (le : α → α → Bool) (arr : List α) :
    ∀ s ∈ merge_sortG le arr,
    s.arr.length = arr.length ∧ ∀ idx ∈ s.active, idx < arr.length := by
  intro s hs
  unfold merge_sortG at hs
  by_cases h : arr.length = 0
  · rw [if_pos h] at hs
    simp only [List.mem_singleton] at hs
    subst hs
    exact ⟨rfl, by intro idx hidx; simp at hidx⟩
  · rw [if_neg h] at hs
    dsimp only at hs
    obtain ⟨e, l, hsn⟩ := sortRec_spec le arr.length 0 arr.length arr (by omega) (by omega)
      (le_refl _)
    rcases List.mem_cons.mp hs with rfl | hs
    · exact ⟨rfl, by intro idx hidx; simp at hidx⟩
    · rcases List.mem_append.mp hs with hs | hs
      · exact hsn s hs
      · simp only [List.mem_singleton] at hs
        subst hs
        exact ⟨l, by intro idx hidx; simp at hidx⟩

theorem merge_sortG_head {α : Type} (le : α → α → Bool) (arr : List α) :
    (merge_sortG le arr).head? = some ⟨arr, [], [], none⟩ := by
  unfold merge_sortG
  by_cases h : arr.length = 0
  · rw [if_pos h]
    rfl
  · rw [if_neg h]
    rfl

theorem intLe_total : ∀ x y : Int, decide (x ≤ y) = false → decide (y ≤ x) = true := by
  intro x y h
  simp only [decide_eq_false_iff_not] at h
  simp only [decide_eq_true_eq]
  omega

theorem intLe_trans : ∀ x y z : Int, decide (x ≤ y) = true → decide (y ≤ z) = true →
    decide (x ≤ z) = true := by
  intro x y z h1 h2
  simp only [decide_eq_true_eq] at h1 h2 ⊢
  omega

/-- The last snapshot of `merge_sort` on integers: sorted permutation of the
input. -/
theorem merge_sort_last (arr : List Int) :
    ∃ s, (merge_sort arr).getLast? = some s ∧
      List.Pairwise (· ≤ ·) s.arr ∧ List.Perm s.arr arr ∧
      s.active = [] ∧ s.sorted = List.range arr.length := by
  obtain ⟨s, h1, h2, h3, h4⟩ := merge_sortG_last (fun x y : Int => decide (x ≤ y)) arr
  refine ⟨s, h1, ?_, ?_, h3, h4⟩
  · rw [h2]
    have := msortPure_sorted (fun x y : Int => decide (x ≤ y)) intLe_total intLe_trans
      arr.length arr (le_refl _)
    exact this.imp (by intro u v huv; simpa using huv)
  · rw [h2]
    exact msortPure_perm _ arr.length arr (le_refl _)

theorem merge_sort_all (arr : List Int) : ∀ s ∈ merge_sort arr,
    s.arr.length = arr.length ∧ ∀ idx ∈ s.active, idx < arr.length :=
  merge_sortG_all _ arr

theorem merge_sort_head (arr : List Int) :
    (merge_sort arr).head? = some ⟨arr, [], [], none⟩ :=
  merge_sortG_head _ arr

/-! ## Facts about quick_sort -/

theorem partLoop_spec (lo high : Nat) (pivot : Int) : ∀ (m j i : Nat) (a : List Int),
    j + m = high → lo ≤ i → i ≤ j → high < a.length →
    geti a high = pivot →
    (∀ p, lo ≤ p → p < i → geti a p < pivot) →
    (∀ p, i ≤ p → p < j → pivot ≤ geti a p) →
    i ≤ (partLoop high pivot (List.range' j m) i a).1 ∧
    (partLoop high pivot (List.range' j m) i a).1 ≤ high ∧
    (partLoop high pivot (List.range' j m) i a).2.1.length = a.length ∧
    List.Perm (partLoop high pivot (List.range' j m) i a).2.1 a ∧
    geti (partLoop high pivot (List.range' j m) i a).2.1 high = pivot ∧
    (∀ p, p < lo ∨ high ≤ p →
      geti (partLoop high pivot (List.range' j m) i a).2.1 p = geti a p) ∧
    (∀ p, lo ≤ p → p < (partLoop high pivot (List.range' j m) i a).1 →
      geti (partLoop high pivot (List.range' j m) i a).2.1 p < pivot) ∧
    (∀ p, (partLoop high pivot (List.range' j m) i a).1 ≤ p → p < high →
      pivot ≤ geti (partLoop high pivot (List.range' j m) i a).2.1 p) ∧
    (∀ s ∈ (partLoop high pivot (List.range' j m) i a).2.2,
      List.Perm s.arr a ∧ s.arr.length = a.length ∧ ∀ idx ∈ s.active, idx ≤ high) := by
  intro m
  induction m with
  | zero =>
    intro j i a hjm hloi hij hlen hpiv hlt hge
    have hjh : j = high := by omega
    subst hjh
    rw [List.range'_zero]
    refine ⟨le_refl _, hij, rfl, List.Perm.refl _, hpiv,
      fun p _ => rfl, hlt, hge, ?_⟩
    intro s hs
    simp only [partLoop, List.not_mem_nil] at hs
  | succ m ih =>
    intro j i a hjm hloi hij hlen hpiv hlt hge
    rw [List.range'_succ]
    simp only [partLoop]
    have hjh : j < high := by omega
    have hja : j < a.length := by omega
    have hia : i < a.length := by omega
    split
    · rename_i hc
      -- swap branch
      set a1 := listSwap a i j with ha1
      have hlen1 : a1.length = a.length := length_listSwap a i j
      have hswp := listSwap_perm a i j hia hja
      have hgi : geti a1 i = geti a j := geti_listSwap_left hia
      have hgj : geti a1 j = geti a i := geti_listSwap_right hja
      have hgo : ∀ p, p ≠ i → p ≠ j → geti a1 p = geti a p := by
        intro p h1 h2
        exact geti_listSwap_other (fun hh => h1 hh.symm) (fun hh => h2 hh.symm)
      have hpiv1 : geti a1 high = pivot := by
        rw [hgo high (by omega) (by omega)]
        exact hpiv
      have hlt1 : ∀ p, lo ≤ p → p < i + 1 → geti a1 p < pivot := by
        intro p hp1 hp2
        rcases Nat.lt_or_ge p i with h | h
        · rw [hgo p (by omega) (by omega)]
          exact hlt p hp1 h
        · have hpi : p = i := by omega
          rw [hpi, hgi]
          exact hc
      have hge1 : ∀ p, i + 1 ≤ p → p < j + 1 → pivot ≤ geti a1 p := by
        intro p hp1 hp2
        rcases Nat.lt_or_ge p j with h | h
        · rw [hgo p (by omega) (by omega)]
          exact hge p (by omega) h
        · have hpj : p = j := by omega
          rw [hpj, hgj]
          exact hge i (le_refl _) (by omega)
      obtain ⟨c1, c2, c3, c4, c5, c6, c7, c8, c9⟩ := ih (j + 1) (i + 1) a1 (by omega)
        (by omega) (by omega) (by rw [hlen1]; exact hlen) hpiv1 hlt1 hge1
      refine ⟨by omega, c2, by rw [c3, hlen1], c4.trans hswp, c5, ?_, c7, c8, ?_⟩
      · intro p hp
        rw [c6 p hp, hgo p (by omega) (by omega)]
      · intro s hs
        rcases List.mem_cons.mp hs with rfl | hs
        · exact ⟨List.Perm.refl _, rfl, by intro idx hidx; simp at hidx; omega⟩
        · rcases List.mem_cons.mp hs with rfl | hs
          · exact ⟨hswp, hlen1, by intro idx hidx; simp at hidx; omega⟩
          · obtain ⟨d1, d2, d3⟩ := c9 s hs
            exact ⟨d1.trans hswp, by rw [d2, hlen1], d3⟩
    · rename_i hc
      have hge1 : ∀ p, i ≤ p → p < j + 1 → pivot ≤ geti a p := by
        intro p hp1 hp2
        rcases Nat.lt_or_ge p j with h | h
        · exact hge p hp1 h
        · have hpj : p = j := by omega
          rw [hpj]
          omega
      obtain ⟨c1, c2, c3, c4, c5, c6, c7, c8, c9⟩ := ih (j + 1) i a (by omega)
        hloi (by omega) hlen hpiv hlt hge1
      refine ⟨c1, c2, c3, c4, c5, c6, c7, c8, ?_⟩
      intro s hs
      rcases List.mem_cons.mp hs with rfl | hs
      · exact ⟨List.Perm.refl _, rfl, by intro idx hidx; simp at hidx; omega⟩
      · exact c9 s hs

/-- Partition correctness for one popped `(low, high)` range: the pivot ends at
`i`, strictly greater elements (and ties) end at or right of `i`, strictly
smaller elements end left of `i`; positions outside `[low, high]` are
untouched; the last snapshot is the "pivot placed" one. -/
theorem partitionStep_spec (a : List Int) (lo hi : Nat) (hlh : lo ≤ hi)
    (hhi : hi < a.length) :
    lo ≤ (partitionStep a lo hi).2.1 ∧
    (partitionStep a lo hi).2.1 ≤ hi ∧
    (partitionStep a lo hi).1.length = a.length ∧
    List.Perm (partitionStep a lo hi).1 a ∧
    (∀ p, p < lo ∨ hi < p → geti (partitionStep a lo hi).1 p = geti a p) ∧
    geti (partitionStep a lo hi).1 (partitionStep a lo hi).2.1 = geti a hi ∧
    (∀ p, lo ≤ p → p < (partitionStep a lo hi).2.1 →
      geti (partitionStep a lo hi).1 p <
        geti (partitionStep a lo hi).1 (partitionStep a lo hi).2.1) ∧
    (∀ p, (partitionStep a lo hi).2.1 ≤ p → p ≤ hi →
      geti (partitionStep a lo hi).1 (partitionStep a lo hi).2.1 ≤
        geti (partitionStep a lo hi).1 p) ∧
    (∀ s ∈ (partitionStep a lo hi).2.2,
      List.Perm s.arr a ∧ s.arr.length = a.length ∧ ∀ idx ∈ s.active, idx ≤ hi) ∧
    (partitionStep a lo hi).2.2.getLast? =
      some ⟨(partitionStep a lo hi).1, [(partitionStep a lo hi).2.1, hi], [],
        some "pivot placed"⟩ := by
  obtain ⟨c1, c2, c3, c4, c5, c6, c7, c8, c9⟩ := partLoop_spec lo hi (geti a hi)
    (hi - lo) lo lo a (by omega) (le_refl _) (le_refl _) hhi rfl
    (by intro p h1 h2; omega) (by intro p h1 h2; omega)
  unfold partitionStep
  rw [pyRange]
  dsimp only
  set r := partLoop hi (geti a hi) (List.range' lo (hi - lo)) lo a with hr
  set i := r.1 with hi'
  set a1 := r.2.1 with ha1
  have hia : i < a1.length := by rw [c3]; omega
  have hha : hi < a1.length := by rw [c3]; exact hhi
  have hgi : geti (listSwap a1 i hi) i = geti a1 hi := geti_listSwap_left hia
  have hgh : geti (listSwap a1 i hi) hi = geti a1 i := geti_listSwap_right hha
  have hgo : ∀ p, p ≠ i → p ≠ hi → geti (listSwap a1 i hi) p = geti a1 p := by
    intro p h1 h2
    exact geti_listSwap_other (fun hh => h1 hh.symm) (fun hh => h2 hh.symm)
  refine ⟨c1, c2, ?_, ?_, ?_, ?_, ?_, ?_, ?_, ?_⟩
  · rw [length_listSwap, c3]
  · exact (listSwap_perm a1 i hi hia hha).trans c4
  · intro p hp
    rw [hgo p (by omega) (by omega), c6 p (by omega)]
  · rw [hgi, c5]
  · intro p hp1 hp2
    rw [hgi, c5, hgo p (by omega) (by omega)]
    exact c7 p hp1 hp2
  · intro p hp1 hp2
    rw [hgi, c5]
    rcases Nat.lt_or_ge p hi with h | h
    · rcases Nat.lt_or_ge i p with h2 | h2
      · rw [hgo p (by omega) (by omega)]
        exact c8 p hp1 h
      · have hpi : p = i := by omega
        rw [hpi, hgi, c5]
    · have hph : p = hi := by omega
      rw [hph, hgh]
      rcases Nat.lt_or_ge i hi with h2 | h2
      · exact c8 i (le_refl _) h2
      · have : i = hi := by omega
        rw [this, c5]
  · intro s hs
    rcases List.mem_append.mp hs with hs | hs
    · obtain ⟨d1, d2, d3⟩ := c9 s hs
      exact ⟨d1, d2, d3⟩
    · simp only [List.mem_singleton] at hs
      subst hs
      refine ⟨(listSwap_perm a1 i hi hia hha).trans c4, by rw [length_listSwap, c3], ?_⟩
      intro idx hidx
      simp at hidx
      omega
  · exact List.getLast?_concat _

theorem take_eq_of_geti_eq {a b : List Int} (hlen : a.length = b.length) (k : Nat)
    (h : ∀ p, p < k → geti a p = geti b p) : a.take k = b.take k := by
  apply List.ext_getElem (by simp [hlen])
  intro p h1 h2
  have hpk : p < k := by
    rw [List.length_take] at h1
    omega
  have hpa : p < a.length := by
    rw [List.length_take] at h1
    omega
  rw [List.getElem_take, List.getElem_take, ← geti_eq_getElem hpa,
    ← geti_eq_getElem (show p < b.length by omega)]
  exact h p hpk

theorem pySlice_getElem (a : List Int) (lo hi t : Nat)
    (h : t < (pySlice a lo hi).length) :
    (pySlice a lo hi)[t] = geti a (lo + t) := by
  have hlt : lo + t < a.length := by
    simp only [pySlice, List.length_drop, List.length_take] at h
    omega
  simp only [pySlice]
  rw [List.getElem_drop, List.getElem_take, geti_eq_getElem hlt]

/-- If `b` is a permutation of `a` that agrees with `a` outside `[lo, hi]`,
then each value of `b` inside `[lo, hi]` is one of `a`'s values inside
`[lo, hi]`. -/
theorem middle_mem (a b : List Int) (lo hi : Nat) (hlen : b.length = a.length)
    (hperm : List.Perm b a) (hout : ∀ p, p < lo ∨ hi < p → geti b p = geti a p)
    (hhi : hi < a.length) (hlh : lo ≤ hi) :
    ∀ p, lo ≤ p → p ≤ hi → ∃ r, lo ≤ r ∧ r ≤ hi ∧ geti b p = geti a r := by
  have htake : b.take lo = a.take lo :=
    take_eq_of_geti_eq hlen lo (fun p hp => hout p (Or.inl hp))
  have hdrop : b.drop (hi + 1) = a.drop (hi + 1) :=
    drop_eq_of_geti_eq hlen (hi + 1) (fun p hp => hout p (Or.inr (by omega)))
  have hb : b = b.take lo ++ pySlice b lo (hi + 1) ++ b.drop (hi + 1) :=
    (take_pySlice_drop b lo (hi + 1) (by omega) (by omega)).symm
  have ha : a = a.take lo ++ pySlice a lo (hi + 1) ++ a.drop (hi + 1) :=
    (take_pySlice_drop a lo (hi + 1) (by omega) (by omega)).symm
  have hpermMid : List.Perm (pySlice b lo (hi + 1)) (pySlice a lo (hi + 1)) := by
    have h1 : List.Perm (b.take lo ++ pySlice b lo (hi + 1) ++ b.drop (hi + 1))
        (a.take lo ++ pySlice a lo (hi + 1) ++ a.drop (hi + 1)) := by
      rw [← hb, ← ha]
      exact hperm
    rw [htake, hdrop] at h1
    have h2 := (List.perm_append_right_iff _).mp h1
    exact (List.perm_append_left_iff _).mp h2
  intro p hp1 hp2
  have hlSb : (pySlice b lo (hi + 1)).length = hi + 1 - lo :=
    length_pySlice b lo (hi + 1) (by omega) (by omega)
  have hidx : p - lo < (pySlice b lo (hi + 1)).length := by omega
  have hv : (pySlice b lo (hi + 1))[p - lo] = geti b p := by
    rw [pySlice_getElem b lo (hi + 1) (p - lo) hidx]
    congr 1
    omega
  have hvmem : geti b p ∈ pySlice b lo (hi + 1) := by
    rw [← hv]
    exact List.getElem_mem _
  have hvmem2 : geti b p ∈ pySlice a lo (hi + 1) := hpermMid.mem_iff.mp hvmem
  obtain ⟨t, ht, hta⟩ := List.mem_iff_getElem.mp hvmem2
  have hlSa : (pySlice a lo (hi + 1)).length = hi + 1 - lo :=
    length_pySlice a lo (hi + 1) (by omega) (by omega)
  have htlt : t < hi + 1 - lo := by
    rw [hlSa] at ht
    exact ht
  refine ⟨lo + t, by omega, by omega, ?_⟩
  rw [← hta, pySlice_getElem a lo (hi + 1) t ht]

theorem quickLoop_spec : ∀ (fuel : Nat) (st : List (Int × Int)) (a : List Int),
    2 * stackMeasure st + st.length < fuel →
    stBounded a.length st → List.Pairwise disjointE st → stOK st a →
    ∃ af snaps, quickLoop fuel st a = some (af, snaps) ∧
      af.length = a.length ∧ List.Perm af a ∧ List.Pairwise (· ≤ ·) af ∧
      (∀ s ∈ snaps, List.Perm s.arr a ∧ s.arr.length = a.length ∧
        ∀ idx ∈ s.active, idx < a.length) := by
  intro fuel
  induction fuel with
  | zero =>
    intro st a hf
    omega
  | succ fuel ih =>
    intro st a hf hbd hdisj hok
    match st with
    | [] =>
      refine ⟨a, [], rfl, rfl, List.Perm.refl _, ?_, by intro s hs; simp at hs⟩
      rw [sorted_iff_geti]
      intro p q hpq hq
      exact hok p q hpq hq (by intro e he; simp at he)
    | (low, high) :: st =>
      simp only [stackMeasure, List.map_cons, List.sum_cons, List.length_cons] at hf
      have hsm : stackMeasure st = (List.map rangeSize st).sum := rfl
      by_cases hskip : low ≥ high
      · -- skipped range
        have hok' : stOK st a := by
          intro p q hpq hq hunc
          refine hok p q hpq hq ?_
          intro e he
          rcases List.mem_cons.mp he with rfl | he
          · intro hcov
            obtain ⟨h1, h2⟩ := hcov
            have : (p : Int) < (q : Int) := by exact_mod_cast hpq
            omega
          · exact hunc e he
        have hr := ih st a (by omega) (fun e he => hbd e (List.mem_cons_of_mem _ he))
          (List.Pairwise.sublist (List.sublist_cons_self _ _) hdisj) hok'
        obtain ⟨af, snaps, heq, h1, h2, h3, h4⟩ := hr
        refine ⟨af, snaps, ?_, h1, h2, h3, h4⟩
        simp only [quickLoop, if_pos hskip]
        exact heq
      · -- partition
        have hlh : low < high := by omega
        have hlow0 : (0 : Int) ≤ low := (hbd (low, high) (List.mem_cons_self _ _)).1
        have hhighn : high ≤ (a.length : Int) - 1 := (hbd (low, high) (List.mem_cons_self _ _)).2
        have hlo : (low.toNat : Int) = low := Int.toNat_of_nonneg hlow0
        have hhi0 : (0 : Int) ≤ high := by omega
        have hhi : (high.toNat : Int) = high := Int.toNat_of_nonneg hhi0
        have hlohi : low.toNat < high.toNat := by omega
        have hhin : high.toNat < a.length := by omega
        obtain ⟨c1, c2, c3, c4, c5, c6, c7, c8, c9, _⟩ :=
          partitionStep_spec a low.toNat high.toNat (by omega) hhin
        set a2 := (partitionStep a low.toNat high.toNat).1 with ha2
        set i := (partitionStep a low.toNat high.toNat).2.1 with hidef
        -- the new stack
        set st' := (((i : Int) + 1, high) :: (low, (i : Int) - 1) :: st) with hst'
        have hmeas : 2 * stackMeasure st' + st'.length < fuel := by
          have e1 : rangeSize ((i : Int) + 1, high) = high.toNat - i := by
            simp only [rangeSize]
            omega
          have e2 : rangeSize (low, (i : Int) - 1) = i - low.toNat := by
            simp only [rangeSize]
            omega
          have e3 : rangeSize (low, high) = high.toNat - low.toNat + 1 := by
            simp only [rangeSize]
            omega
          rw [e3] at hf
          simp only [hst', stackMeasure, List.map_cons, List.sum_cons, List.length_cons, e1, e2]
          omega
        have hbd' : stBounded a2.length st' := by
          intro e he
          rw [c3]
          rcases List.mem_cons.mp he with rfl | he
          · exact ⟨show (0 : Int) ≤ (i : Int) + 1 by omega,
              show high ≤ (a.length : Int) - 1 by omega⟩
          · rcases List.mem_cons.mp he with rfl | he
            · exact ⟨show (0 : Int) ≤ low by omega,
                show (i : Int) - 1 ≤ (a.length : Int) - 1 by omega⟩
            · exact hbd e (List.mem_cons_of_mem _ he)
        have hdisj' : List.Pairwise disjointE st' := by
          rw [hst', List.pairwise_cons]
          constructor
          · intro e he
            rcases List.mem_cons.mp he with rfl | he
            · intro x hx
              have h1 : (i : Int) + 1 ≤ x := hx.1
              have h4 : x ≤ (i : Int) - 1 := hx.2.2.2
              omega
            · have hd := (List.pairwise_cons.mp hdisj).1 e he
              intro x hx
              have h1 : (i : Int) + 1 ≤ x := hx.1
              have h2 : x ≤ high := hx.2.1
              exact hd x ⟨by omega, by omega, hx.2.2.1, hx.2.2.2⟩
          · rw [List.pairwise_cons]
            constructor
            · intro e he
              have hd := (List.pairwise_cons.mp hdisj).1 e he
              intro x hx
              have h1 : low ≤ x := hx.1
              have h2 : x ≤ (i : Int) - 1 := hx.2.1
              exact hd x ⟨by omega, by omega, hx.2.2.1, hx.2.2.2⟩
            · exact (List.pairwise_cons.mp hdisj).2
        have hmm := middle_mem a a2 low.toNat high.toNat c3 c4 c5 hhin (by omega)
        have hok' : stOK st' a2 := by
          intro p q hpq hq hunc
          rw [c3] at hq
          have hnc1 : ¬((i : Int) + 1 ≤ (p : Int) ∧ (q : Int) ≤ high) :=
            hunc _ (List.mem_cons_self _ _)
          have hnc2 : ¬(low ≤ (p : Int) ∧ (q : Int) ≤ (i : Int) - 1) :=
            hunc _ (List.mem_cons_of_mem _ (List.mem_cons_self _ _))
          have hncst : ∀ e ∈ st, ¬ covers e p q := fun e he =>
            hunc e (List.mem_cons_of_mem _ (List.mem_cons_of_mem _ he))
          by_cases hpin : low.toNat ≤ p ∧ p ≤ high.toNat
          · by_cases hqin : low.toNat ≤ q ∧ q ≤ high.toNat
            · have hpi : p ≤ i := by
                by_contra hcon
                exact hnc1 ⟨by omega, by omega⟩
              have hqi : i ≤ q := by
                by_contra hcon
                exact hnc2 ⟨by omega, by omega⟩
              rcases Nat.lt_or_ge p i with h | h
              · exact le_trans (le_of_lt (c7 p hpin.1 h)) (c8 q hqi hqin.2)
              · have hpeq : p = i := by omega
                rw [hpeq]
                exact c8 q hqi hqin.2
            · have hqout : high.toNat < q := by omega
              obtain ⟨r, hr1, hr2, hrv⟩ := hmm p hpin.1 hpin.2
              rw [hrv, c5 q (Or.inr hqout)]
              refine hok r q (by omega) (by omega) ?_
              intro e he
              rcases List.mem_cons.mp he with rfl | he
              · intro hcov
                have hcov2 : (q : Int) ≤ high := hcov.2
                omega
              · intro hcov
                have hd := (List.pairwise_cons.mp hdisj).1 e he
                have hcov1 : e.1 ≤ (r : Int) := hcov.1
                have hcov2 : (q : Int) ≤ e.2 := hcov.2
                exact hd r ⟨by omega, by omega, by omega, by omega⟩
          · by_cases hqin : low.toNat ≤ q ∧ q ≤ high.toNat
            · have hpout : p < low.toNat := by omega
              obtain ⟨r, hr1, hr2, hrv⟩ := hmm q hqin.1 hqin.2
              rw [hrv, c5 p (Or.inl hpout)]
              refine hok p r (by omega) (by omega) ?_
              intro e he
              rcases List.mem_cons.mp he with rfl | he
              · intro hcov
                have hcov1 : low ≤ (p : Int) := hcov.1
                omega
              · intro hcov
                have hd := (List.pairwise_cons.mp hdisj).1 e he
                have hcov1 : e.1 ≤ (p : Int) := hcov.1
                have hcov2 : (r : Int) ≤ e.2 := hcov.2
                exact hd r ⟨by omega, by omega, by omega, by omega⟩
            · have hp' : p < low.toNat ∨ high.toNat < p := by omega
              have hq' : q < low.toNat ∨ high.toNat < q := by omega
              rw [c5 p hp', c5 q hq']
              refine hok p q hpq (by omega) ?_
              intro e he
              rcases List.mem_cons.mp he with rfl | he
              · intro hcov
                have hcov1 : low ≤ (p : Int) := hcov.1
                have hcov2 : (q : Int) ≤ high := hcov.2
                omega
              · exact hncst e he
        obtain ⟨af, snaps', heq, k1, k2, k3, k4⟩ := ih st' a2 hmeas hbd' hdisj' hok'
        refine ⟨af, (partitionStep a low.toNat high.toNat).2.2 ++ snaps', ?_,
          by rw [k1, c3], k2.trans c4, k3, ?_⟩
        · simp only [quickLoop, if_neg hskip]
          rw [← ha2, ← hidef, ← hst', heq]
        · intro s hs
          rcases List.mem_append.mp hs with hs | hs
          · obtain ⟨d1, d2, d3⟩ := c9 s hs
            refine ⟨d1, d2, ?_⟩
            intro idx hidx
            have := d3 idx hidx
            omega
          · obtain ⟨d1, d2, d3⟩ := k4 s hs
            refine ⟨d1.trans c4, by rw [d2, c3], ?_⟩
            intro idx hidx
            have := d3 idx hidx
            rw [c3] at this
            exact this
/-- The stack loop of `quick_sort`, run with fuel `2n + 2` from the initial
stack `[(0, n-1)]`, always terminates with the stack emptied (`some` result),
and the final array is a sorted permutation of the input. -/
theorem quick_sort_run (arr : List Int) :
    ∃ af snaps,
      quickLoop (quickFuel arr.length) [((0 : Int), (arr.length : Int) - 1)] arr
        = some (af, snaps) ∧ af.length = arr.length ∧ List.Perm af arr ∧
      List.Pairwise (· ≤ ·) af ∧
      (∀ s ∈ snaps, List.Perm s.arr arr ∧ s.arr.length = arr.length ∧
        ∀ idx ∈ s.active, idx < arr.length) := by
  apply quickLoop_spec
  · simp only [stackMeasure, rangeSize, List.map_cons, List.map_nil, List.sum_cons,
      List.sum_nil, List.length_cons, List.length_nil, quickFuel]
    omega
  · intro e he
    simp only [List.mem_singleton] at he
    subst he
    exact ⟨show (0 : Int) ≤ 0 by omega, show (arr.length : Int) - 1 ≤ (arr.length : Int) - 1 by omega⟩
  · exact List.pairwise_singleton _ _
  · intro p q hpq hq hunc
    exfalso
    apply hunc ((0 : Int), (arr.length : Int) - 1) (List.mem_singleton_self _)
    exact ⟨show (0 : Int) ≤ (p : Int) by omega, show (q : Int) ≤ (arr.length : Int) - 1 by omega⟩

/-- The last snapshot of `quick_sort`. -/
theorem quick_sort_last (arr : List Int) :
    ∃ s, (quick_sort arr).getLast? = some s ∧
      List.Pairwise (· ≤ ·) s.arr ∧ List.Perm s.arr arr ∧
      s.active = [] ∧ s.sorted = List.range arr.length := by
  unfold quick_sort
  by_cases h : arr.length = 0
  · rw [if_pos h]
    have harr : arr = [] := List.length_eq_zero.mp h
    refine ⟨_, rfl, ?_, List.Perm.refl _, rfl, by rw [h]; rfl⟩
    subst harr
    exact List.Pairwise.nil
  · rw [if_neg h]
    obtain ⟨af, snaps, heq, h1, h2, h3, h4⟩ := quick_sort_run arr
    rw [heq]
    exact ⟨_, getLast?_shape _ _ _, h3, h2, rfl, rfl⟩

/-- Every snapshot of `quick_sort` is a permutation of the input with in-range
active indices. -/
theorem quick_sort_all (arr : List Int) : ∀ s ∈ quick_sort arr,
    List.Perm s.arr arr ∧ s.arr.length = arr.length ∧ ∀ idx ∈ s.active, idx < arr.length := by
  intro s hs
  unfold quick_sort at hs
  by_cases h : arr.length = 0
  · rw [if_pos h] at hs
    simp only [List.mem_singleton] at hs
    subst hs
    exact ⟨List.Perm.refl _, rfl, by intro idx hidx; simp at hidx⟩
  · rw [if_neg h] at hs
    obtain ⟨af, snaps, heq, h1, h2, h3, h4⟩ := quick_sort_run arr
    rw [heq] at hs
    rcases List.mem_cons.mp hs with rfl | hs
    · exact ⟨List.Perm.refl _, rfl, by intro idx hidx; simp at hidx⟩
    · rcases List.mem_append.mp hs with hs | hs
      · exact h4 s hs
      · simp only [List.mem_singleton] at hs
        subst hs
        exact ⟨h2, h1, by intro idx hidx; simp at hidx⟩

theorem quick_sort_head (arr : List Int) :
    (quick_sort arr).head? = some ⟨arr, [], [], none⟩ := by
  unfold quick_sort
  by_cases h : arr.length = 0
  · rw [if_pos h]
    rfl
  · rw [if_neg h]
    obtain ⟨af, snaps, heq, _, _, _, _⟩ := quick_sort_run arr
    rw [heq]
    rfl

/-! ## Stability of the merge, observed through key/tag pairs -/

theorem pairLe_total : ∀ x y : Int × Nat, pairLe x y = false → pairLe y x = true := by
  intro x y h
  simp only [pairLe, decide_eq_false_iff_not] at h
  simp only [pairLe, decide_eq_true_eq]
  omega

theorem pairLe_trans : ∀ x y z : Int × Nat, pairLe x y = true → pairLe y z = true →
    pairLe x z = true := by
  intro x y z h1 h2
  simp only [pairLe, decide_eq_true_eq] at h1 h2 ⊢
  omega

theorem keyFilter_cons (k : Int) (x : Int × Nat) (l : List (Int × Nat)) :
    keyFilter k (x :: l) = if x.1 = k then x :: keyFilter k l else keyFilter k l := by
  simp only [keyFilter, List.filter_cons]
  by_cases h : x.1 = k
  · rw [if_pos (by simpa using h), if_pos h]
  · rw [if_neg (by simpa using h), if_neg h]

theorem mergeLists_keyFilter (k : Int) : ∀ (fuel : Nat) (L R : List (Int × Nat)),
    L.length + R.length ≤ fuel →
    List.Pairwise (fun u v => pairLe u v = true) L →
    keyFilter k (mergeLists pairLe L R) = keyFilter k L ++ keyFilter k R := by
  intro fuel
  induction fuel with
  | zero =>
    intro L R hf hL
    match L, R with
    | [], R => simp only [mergeLists, keyFilter, List.filter_nil, List.nil_append]
    | x :: L, [] => simp only [List.length_cons] at hf; omega
    | x :: L, y :: R => simp only [List.length_cons] at hf; omega
  | succ fuel ih =>
    intro L R hf hL
    match L, R with
    | [], R => simp only [mergeLists, keyFilter, List.filter_nil, List.nil_append]
    | x :: L, [] => simp only [mergeLists, keyFilter, List.filter_nil, List.append_nil]
    | x :: L, y :: R =>
      simp only [List.length_cons] at hf
      rw [mergeLists]
      split
      · rename_i hle
        rw [keyFilter_cons, keyFilter_cons,
          ih L (y :: R) (by simp only [List.length_cons]; omega)
            (List.pairwise_cons.mp hL).2]
        by_cases hx : x.1 = k
        · rw [if_pos hx, if_pos hx, List.cons_append]
        · rw [if_neg hx, if_neg hx]
      · rename_i hle
        have hyx : y.1 < x.1 := by
          simp only [pairLe, decide_eq_true_eq] at hle
          omega
        rw [keyFilter_cons k y (mergeLists pairLe (x :: L) R),
          ih (x :: L) R (by simp only [List.length_cons]; omega) hL,
          keyFilter_cons k y R]
        by_cases hy : y.1 = k
        · rw [if_pos hy, if_pos hy]
          have hnil : keyFilter k (x :: L) = [] := by
            simp only [keyFilter]
            rw [List.filter_eq_nil_iff]
            intro z hz
            simp only [decide_eq_true_eq]
            rcases List.mem_cons.mp hz with rfl | hz
            · omega
            · have := (List.pairwise_cons.mp hL).1 z hz
              simp only [pairLe, decide_eq_true_eq] at this
              omega
          rw [hnil, List.nil_append, List.nil_append]
        · rw [if_neg hy, if_neg hy]

theorem msortPure_keyFilter (k : Int) : ∀ (fuel : Nat) (l : List (Int × Nat)),
    l.length ≤ fuel → keyFilter k (msortPure pairLe l) = keyFilter k l := by
  intro fuel
  induction fuel with
  | zero =>
    intro l hf
    have hnil : l = [] := List.length_eq_zero.mp (by omega)
    subst hnil
    rw [msortPure_short pairLe [] (by simp)]
  | succ fuel ih =>
    intro l hf
    rw [msortPure]
    split
    · rfl
    · rename_i hlen
      rw [mergeLists_keyFilter k
        ((msortPure pairLe (l.take (l.length / 2))).length +
          (msortPure pairLe (l.drop (l.length / 2))).length) _ _ (le_refl _)
        (msortPure_sorted pairLe pairLe_total pairLe_trans
          (l.take (l.length / 2)).length (l.take (l.length / 2)) (le_refl _))]
      rw [ih _ (by rw [List.length_take]; omega), ih _ (by rw [List.length_drop]; omega)]
      simp only [keyFilter]
      rw [← List.filter_append, List.take_append_drop]

theorem orderedInsert_keyFilter (k : Int) (x : Int × Nat) : ∀ s : List (Int × Nat),
    keyFilter k (List.orderedInsert rPair x s) = keyFilter k (x :: s) := by
  intro s
  induction s with
  | nil => rfl
  | cons y s ih =>
    rw [List.orderedInsert]
    split
    · rfl
    · rename_i hxy
      have hyx : y.1 < x.1 := by
        simp only [rPair] at hxy
        omega
      rw [keyFilter_cons k y (List.orderedInsert rPair x s), ih,
        keyFilter_cons k x s, keyFilter_cons k x (y :: s), keyFilter_cons k y s]
      by_cases hy : y.1 = k
      · by_cases hx : x.1 = k
        · exfalso
          omega
        · simp [hy, hx]
      · by_cases hx : x.1 = k
        · simp [hy, hx]
        · simp [hy, hx]

theorem insertionSort_keyFilter (k : Int) : ∀ l : List (Int × Nat),
    keyFilter k (List.insertionSort rPair l) = keyFilter k l := by
  intro l
  induction l with
  | nil => rfl
  | cons x l ih =>
    rw [List.insertionSort, orderedInsert_keyFilter, keyFilter_cons, keyFilter_cons, ih]

/-- A sorted permutation that preserves every per-key subsequence is unique:
this pins down "the stable sort" of a list of key/tag pairs. -/
theorem stable_unique : ∀ (O R : List (Int × Nat)), List.Perm O R →
    List.Pairwise rPair O → List.Pairwise rPair R →
    (∀ k, keyFilter k O = keyFilter k R) → O = R := by
  intro O
  induction O with
  | nil =>
    intro R hperm _ _ _
    have := hperm.symm
    rw [List.perm_nil] at this
    exact this.symm
  | cons x O ih =>
    intro R hperm hO hR hfil
    match R with
    | [] =>
      rw [List.perm_nil] at hperm
      exact absurd hperm (by simp)
    | y :: R =>
      have hxy : x.1 = y.1 := by
        have h1 : y ∈ x :: O := hperm.symm.subset (List.mem_cons_self y R)
        have h2 : x ∈ y :: R := hperm.subset (List.mem_cons_self x O)
        have hxle : rPair x y := by
          rcases List.mem_cons.mp h1 with hh | h1
          · rw [hh]
            exact le_refl _
          · exact (List.pairwise_cons.mp hO).1 y h1
        have hyle : rPair y x := by
          rcases List.mem_cons.mp h2 with hh | h2
          · rw [hh]
            exact le_refl _
          · exact (List.pairwise_cons.mp hR).1 x h2
        simp only [rPair] at hxle hyle
        omega
      have hfx := hfil x.1
      rw [keyFilter_cons, keyFilter_cons, if_pos rfl, if_pos (by omega)] at hfx
      have hxyeq : x = y := by
        injection hfx with h1 _
      subst hxyeq
      have hperm' : List.Perm O R := hperm.cons_inv
      have hfil' : ∀ k, keyFilter k O = keyFilter k R := by
        intro k
        have hk := hfil k
        rw [keyFilter_cons, keyFilter_cons] at hk
        by_cases hx : x.1 = k
        · rw [if_pos hx, if_pos hx] at hk
          injection hk
        · rw [if_neg hx, if_neg hx] at hk
          exact hk
      rw [ih R hperm' (List.pairwise_cons.mp hO).2 (List.pairwise_cons.mp hR).2 hfil']

/-- The pure merge sort on key/tag pairs, compared by key only with ties to the
left buffer, IS the stable reference sort, and preserves every per-key
subsequence. -/
theorem msortPure_pairs_stable (l : List (Int × Nat)) :
    msortPure pairLe l = List.insertionSort rPair l ∧
    ∀ k, keyFilter k (msortPure pairLe l) = keyFilter k l := by
  have hperm : List.Perm (msortPure pairLe l) (List.insertionSort rPair l) :=
    (msortPure_perm pairLe l.length l (le_refl _)).trans
      (List.perm_insertionSort rPair l).symm
  have hsortO : List.Pairwise rPair (msortPure pairLe l) := by
    have hh := msortPure_sorted pairLe pairLe_total pairLe_trans l.length l (le_refl _)
    exact hh.imp (by intro u v h; simpa [pairLe] using h)
  have hsortR : List.Pairwise rPair (List.insertionSort rPair l) :=
    List.sorted_insertionSort rPair l
  have hfil : ∀ k, keyFilter k (msortPure pairLe l) =
      keyFilter k (List.insertionSort rPair l) := by
    intro k
    rw [msortPure_keyFilter k l.length l (le_refl _), insertionSort_keyFilter]
  exact ⟨stable_unique _ _ hperm hsortO hsortR hfil,
    fun k => msortPure_keyFilter k l.length l (le_refl _)⟩

/-! ## The claims -/

/-- C1: for each of the five sorting generators and every finite input list
(including empty and single-element lists), the array in the last yielded
Snapshot is sorted in non-decreasing order and is a permutation of the
input. -/
theorem claim_C1 (arr : List Int) :
    (∃ s, (bubble_sort arr).getLast? = some s ∧
      List.Pairwise (· ≤ ·) s.arr ∧ List.Perm s.arr arr) ∧
    (∃ s, (selection_sort arr).getLast? = some s ∧
      List.Pairwise (· ≤ ·) s.arr ∧ List.Perm s.arr arr) ∧
    (∃ s, (insertion_sort arr).getLast? = some s ∧
      List.Pairwise (· ≤ ·) s.arr ∧ List.Perm s.arr arr) ∧
    (∃ s, (merge_sort arr).getLast? = some s ∧
      List.Pairwise (· ≤ ·) s.arr ∧ List.Perm s.arr arr) ∧
    (∃ s, (quick_sort arr).getLast? = some s ∧
      List.Pairwise (· ≤ ·) s.arr ∧ List.Perm s.arr arr) := by
  refine ⟨?_, ?_, ?_, ?_, ?_⟩
  · obtain ⟨s, h1, h2, h3, _, _⟩ := bubble_sort_last arr
    exact ⟨s, h1, h2, h3⟩
  · obtain ⟨s, h1, h2, h3, _, _⟩ := selection_sort_last arr
    exact ⟨s, h1, h2, h3⟩
  · obtain ⟨s, h1, h2, h3, _, _⟩ := insertion_sort_last arr
    exact ⟨s, h1, h2, h3⟩
  · obtain ⟨s, h1, h2, h3, _, _⟩ := merge_sort_last arr
    exact ⟨s, h1, h2, h3⟩
  · obtain ⟨s, h1, h2, h3, _, _⟩ := quick_sort_last arr
    exact ⟨s, h1, h2, h3⟩

/-- C2 (counterexample): the claim "every yielded Snapshot's array is a
permutation of the input, for every algorithm" is false: the third snapshot of
`insertion_sort [2, 1]` holds `[2, 2]`, which is not a permutation of `[2, 1]`
— the shift `a[j+1] = a[j]` transiently duplicates a value. -/
theorem claim_C2_counterexample :
    ((insertion_sort [2, 1]).map Snap.arr)[2]? = some [2, 2] ∧
    ¬ List.Perm [(2 : Int), 2] [2, 1] := by
  constructor
  · rfl
  · decide

/-- C2 (amended): every snapshot of bubble, selection and quick sort holds a
permutation of the input; for insertion and merge sort the first and the last
snapshots do (mid-shift and mid-merge snapshots may transiently duplicate
values). -/
theorem claim_C2 (arr : List Int) :
    (∀ s ∈ bubble_sort arr, List.Perm s.arr arr) ∧
    (∀ s ∈ selection_sort arr, List.Perm s.arr arr) ∧
    (∀ s ∈ quick_sort arr, List.Perm s.arr arr) ∧
    ((insertion_sort arr).head? = some ⟨arr, [], [], none⟩ ∧
      ∃ s, (insertion_sort arr).getLast? = some s ∧ List.Perm s.arr arr) ∧
    ((merge_sort arr).head? = some ⟨arr, [], [], none⟩ ∧
      ∃ s, (merge_sort arr).getLast? = some s ∧ List.Perm s.arr arr) := by
  refine ⟨?_, ?_, ?_, ⟨insertion_sort_head arr, ?_⟩, ⟨merge_sort_head arr, ?_⟩⟩
  · intro s hs
    exact (bubble_sort_all arr s hs).1
  · intro s hs
    exact (selection_sort_all arr s hs).1
  · intro s hs
    exact (quick_sort_all arr s hs).1
  · obtain ⟨s, h1, _, h3, _, _⟩ := insertion_sort_last arr
    exact ⟨s, h1, h3⟩
  · obtain ⟨s, h1, _, h3, _, _⟩ := merge_sort_last arr
    exact ⟨s, h1, h3⟩

theorem claim_C2_witness : List.Perm [(1 : Int), 3, 2] [3, 1, 2] :=
  (claim_C2 [3, 1, 2]).1 ⟨[1, 3, 2], [0, 1], [], none⟩ (by decide)

/-- C3: for each of the five generators, on a non-empty input the first
yielded Snapshot is the unmodified input with empty `active` and `sorted`; on
every input the last Snapshot has empty `active` and `sorted = [0, ..., n-1]`;
and every Snapshot's array has the input's length. -/
theorem claim_C3 (arr : List Int) :
    (arr ≠ [] →
      (bubble_sort arr).head? = some ⟨arr, [], [], none⟩ ∧
      (selection_sort arr).head? = some ⟨arr, [], [], none⟩ ∧
      (insertion_sort arr).head? = some ⟨arr, [], [], none⟩ ∧
      (merge_sort arr).head? = some ⟨arr, [], [], none⟩ ∧
      (quick_sort arr).head? = some ⟨arr, [], [], none⟩) ∧
    ((∃ s, (bubble_sort arr).getLast? = some s ∧ s.active = [] ∧
        s.sorted = List.range arr.length) ∧
      (∃ s, (selection_sort arr).getLast? = some s ∧ s.active = [] ∧
        s.sorted = List.range arr.length) ∧
      (∃ s, (insertion_sort arr).getLast? = some s ∧ s.active = [] ∧
        s.sorted = List.range arr.length) ∧
      (∃ s, (merge_sort arr).getLast? = some s ∧ s.active = [] ∧
        s.sorted = List.range arr.length) ∧
      (∃ s, (quick_sort arr).getLast? = some s ∧ s.active = [] ∧
        s.sorted = List.range arr.length)) ∧
    ((∀ s ∈ bubble_sort arr, s.arr.length = arr.length) ∧
      (∀ s ∈ selection_sort arr, s.arr.length = arr.length) ∧
      (∀ s ∈ insertion_sort arr, s.arr.length = arr.length) ∧
      (∀ s ∈ merge_sort arr, s.arr.length = arr.length) ∧
      (∀ s ∈ quick_sort arr, s.arr.length = arr.length)) := by
  refine ⟨?_, ⟨?_, ?_, ?_, ?_, ?_⟩, ⟨?_, ?_, ?_, ?_, ?_⟩⟩
  · intro _
    exact ⟨bubble_sort_head arr, selection_sort_head arr, insertion_sort_head arr,
      merge_sort_head arr, quick_sort_head arr⟩
  · obtain ⟨s, h1, _, _, h4, h5⟩ := bubble_sort_last arr
    exact ⟨s, h1, h4, h5⟩
  · obtain ⟨s, h1, _, _, h4, h5⟩ := selection_sort_last arr
    exact ⟨s, h1, h4, h5⟩
  · obtain ⟨s, h1, _, _, h4, h5⟩ := insertion_sort_last arr
    exact ⟨s, h1, h4, h5⟩
  · obtain ⟨s, h1, _, _, h4, h5⟩ := merge_sort_last arr
    exact ⟨s, h1, h4, h5⟩
  · obtain ⟨s, h1, _, _, h4, h5⟩ := quick_sort_last arr
    exact ⟨s, h1, h4, h5⟩
  · intro s hs
    exact (bubble_sort_all arr s hs).2.1
  · intro s hs
    exact (selection_sort_all arr s hs).2.1
  · intro s hs
    exact (insertion_sort_all arr s hs).1
  · intro s hs
    exact (merge_sort_all arr s hs).1
  · intro s hs
    exact (quick_sort_all arr s hs).2.1

theorem claim_C3_witness :
    (bubble_sort [3, 1, 2]).head? = some ⟨[3, 1, 2], [], [], none⟩ :=
  ((claim_C3 [3, 1, 2]).1 (by decide)).1

/-- C4: the merge's ties favor the left buffer, so on key/tag pairs compared
by key only the final array of the (generic) merge_sort equals the stable
reference sort — `List.insertionSort` by key — and every per-key subsequence
of the input is preserved in order. -/
theorem claim_C4 (l : List (Int × Nat)) :
    ∃ s, (merge_sortG pairLe l).getLast? = some s ∧
      s.arr = List.insertionSort rPair l ∧
      ∀ k, keyFilter k s.arr = keyFilter k l := by
  obtain ⟨s, h1, h2, _, _⟩ := merge_sortG_last pairLe l
  obtain ⟨hstable, hfil⟩ := msortPure_pairs_stable l
  refine ⟨s, h1, by rw [h2, hstable], ?_⟩
  intro k
  rw [h2]
  exact hfil k

/-- C5: for every partition step of `quick_sort` over a popped range
`[low, high]`: after the final pivot swap (recorded by the last, "pivot
placed" snapshot), the pivot sits at index `i` with `low ≤ i ≤ high`, every
element at a position in `[low, i)` is strictly less than the pivot value, and
every element at a position in `[i, high]` is greater than or equal to it. -/
theorem claim_C5 (a : List Int) (low high : Nat) (h1 : low < high)
    (h2 : high < a.length) :
    low ≤ (partitionStep a low high).2.1 ∧
    (partitionStep a low high).2.1 ≤ high ∧
    (partitionStep a low high).2.2.getLast? =
      some ⟨(partitionStep a low high).1, [(partitionStep a low high).2.1, high], [],
        some "pivot placed"⟩ ∧
    geti (partitionStep a low high).1 (partitionStep a low high).2.1 = geti a high ∧
    (∀ p, low ≤ p → p < (partitionStep a low high).2.1 →
      geti (partitionStep a low high).1 p <
        geti (partitionStep a low high).1 (partitionStep a low high).2.1) ∧
    (∀ p, (partitionStep a low high).2.1 ≤ p → p ≤ high →
      geti (partitionStep a low high).1 (partitionStep a low high).2.1 ≤
        geti (partitionStep a low high).1 p) := by
  obtain ⟨c1, c2, _, _, _, c6, c7, c8, _, c10⟩ :=
    partitionStep_spec a low high (by omega) h2
  exact ⟨c1, c2, c10, c6, c7, c8⟩

theorem claim_C5_witness :
    0 ≤ (partitionStep [3, 1, 2] 0 2).2.1 ∧
    (partitionStep [3, 1, 2] 0 2).2.1 ≤ 2 ∧
    (partitionStep [3, 1, 2] 0 2).2.2.getLast? =
      some ⟨(partitionStep [3, 1, 2] 0 2).1, [(partitionStep [3, 1, 2] 0 2).2.1, 2], [],
        some "pivot placed"⟩ :=
  ⟨(claim_C5 [3, 1, 2] 0 2 (by decide) (by decide)).1,
   (claim_C5 [3, 1, 2] 0 2 (by decide) (by decide)).2.1,
   (claim_C5 [3, 1, 2] 0 2 (by decide) (by decide)).2.2.1⟩

/-- C6: on an already-sorted non-empty input of length `n`, `bubble_sort`
performs exactly one comparison pass and exits early: the trace is exactly the
before-frame, the `n - 1` comparison frames of that single pass, and the final
frame — `n + 1` snapshots in total. -/
theorem claim_C6 (arr : List Int) (hs : List.Pairwise (· ≤ ·) arr)
    (hne : arr ≠ []) :
    bubble_sort arr = ⟨arr, [], [], none⟩ ::
      ((List.range (arr.length - 1)).map
        (fun j => (⟨arr, [j, j + 1], [], none⟩ : Snap Int)) ++
      [⟨arr, [], List.range arr.length, none⟩]) ∧
    (bubble_sort arr).length = arr.length + 1 := by
  have h := bubble_sort_of_sorted arr hs hne
  refine ⟨h, ?_⟩
  rw [h]
  simp only [List.length_cons, List.length_append, List.length_map, List.length_range,
    List.length_nil]
  have : arr.length ≠ 0 := by
    intro hc
    exact hne (List.length_eq_zero.mp hc)
  omega

theorem claim_C6_witness : (bubble_sort [1, 2, 3]).length = 3 + 1 :=
  (claim_C6 [1, 2, 3] (by decide) (by decide)).2

/-- C7 (counterexample): the claim "an empty input produces exactly one
Snapshot for every one of the five algorithms" is false: `selection_sort []`
and `insertion_sort []` (which lack the `n == 0` early return) each yield two
snapshots. -/
theorem claim_C7_counterexample :
    (selection_sort ([] : List Int)).length = 2 ∧
    (insertion_sort ([] : List Int)).length = 2 ∧
    ¬ (selection_sort ([] : List Int)).length = 1 := by
  refine ⟨rfl, rfl, by decide⟩

/-- C7 (amended): on the empty input, `bubble_sort`, `merge_sort` and
`quick_sort` yield exactly one trivial Snapshot (empty array, empty
active/sorted) and finish; `selection_sort` and `insertion_sort` yield exactly
two such trivial Snapshots and finish. -/
theorem claim_C7 :
    bubble_sort ([] : List Int) = [⟨[], [], [], none⟩] ∧
    merge_sort ([] : List Int) = [⟨[], [], [], none⟩] ∧
    quick_sort ([] : List Int) = [⟨[], [], [], none⟩] ∧
    selection_sort ([] : List Int) = [⟨[], [], [], none⟩, ⟨[], [], [], none⟩] ∧
    insertion_sort ([] : List Int) = [⟨[], [], [], none⟩, ⟨[], [], [], none⟩] :=
  ⟨rfl, rfl, rfl, rfl, rfl⟩

/-- C8: for each of the five generators, every index in the `active` set of
any yielded Snapshot is a valid index into the array: `idx < n`.  (The
embedding's active indices are natural numbers, so `0 ≤ idx` holds by
construction; no emission site can produce a negative value.) -/
theorem claim_C8 (arr : List Int) :
    (∀ s ∈ bubble_sort arr, ∀ idx ∈ s.active, idx < arr.length) ∧
    (∀ s ∈ selection_sort arr, ∀ idx ∈ s.active, idx < arr.length) ∧
    (∀ s ∈ insertion_sort arr, ∀ idx ∈ s.active, idx < arr.length) ∧
    (∀ s ∈ merge_sort arr, ∀ idx ∈ s.active, idx < arr.length) ∧
    (∀ s ∈ quick_sort arr, ∀ idx ∈ s.active, idx < arr.length) := by
  refine ⟨?_, ?_, ?_, ?_, ?_⟩
  · intro s hs
    exact (bubble_sort_all arr s hs).2.2
  · intro s hs
    exact (selection_sort_all arr s hs).2.2
  · intro s hs
    exact (insertion_sort_all arr s hs).2
  · intro s hs
    exact (merge_sort_all arr s hs).2
  · intro s hs
    exact (quick_sort_all arr s hs).2.2

theorem claim_C8_witness : 1 < ([(3 : Int), 1, 2] : List Int).length :=
  (claim_C8 [3, 1, 2]).1 ⟨[3, 1, 2], [0, 1], [], none⟩ (by decide) 1 (by decide)

/-- C9: the explicit-stack loop of `quick_sort` always empties its stack
within the fuel bound `2n + 2` (so the generator yields finitely many
snapshots and terminates); the other four generators are structurally
terminating loops over finite index ranges. -/
theorem claim_C9 (arr : List Int) :
    ∃ af snaps,
      quickLoop (quickFuel arr.length) [((0 : Int), (arr.length : Int) - 1)] arr
        = some (af, snaps) := by
  obtain ⟨af, snaps, heq, _, _, _, _⟩ := quick_sort_run arr
  exact ⟨af, snaps, heq⟩

end Mavis
